import Mathlib

/-!
# Verification of the concurrent orchestration engine

A shallow embedding, in Lean 4, of the concurrent-orchestration core of the
repository: the retry manager (`RetryManager`), the file-lock manager
(`FileLockManager`), the concurrent-call parser
(`GeminiClient.parseConcurrentSyntax`), and the stream aggregator
(`StreamAggregator.mergeStreams` together with
`GeminiClient.executeConcurrentStreams`).

JavaScript `Map` objects are modelled as association lists with JS `Map`
semantics (`set` overwrites in place, `delete` removes, insertion order is
preserved).  JavaScript `Error` objects are modelled by their message strings.
Asynchronous code is modelled by the event-loop semantics of Node.js: each
synchronous block between suspension points is one atomic step, and concurrent
callers are an arbitrary interleaving of such steps.
-/

/-! ## Association lists with JS `Map` semantics -/

/-- JS `Map.prototype.get`. -/
def mapGet {α : Type} : List (String × α) → String → Option α
  | [], _ => none
  | (k', v) :: rest, k => if k' = k then some v else mapGet rest k

/-- JS `Map.prototype.set`: overwrite the entry in place if the key is
present, otherwise append at the end (insertion order). -/
def mapSet {α : Type} (m : List (String × α)) (k : String) (v : α) :
    List (String × α) :=
  if m.any (fun e => e.1 = k) then
    m.map (fun e => if e.1 = k then (k, v) else e)
  else
    m ++ [(k, v)]

/-- JS `Map.prototype.delete`. -/
def mapDel {α : Type} (m : List (String × α)) (k : String) :
    List (String × α) :=
  m.filter (fun e => e.1 ≠ k)

theorem mapGet_mapDel_self {α : Type} (m : List (String × α)) (k : String) :
    mapGet (mapDel m k) k = none := by
  induction m with
  | nil => rfl
  | cons e rest ih =>
    by_cases h : e.1 = k
    · simpa [mapDel, List.filter, h] using ih
    · simpa [mapDel, List.filter, h, mapGet] using ih

/-! ## RetryManager (`RetryManager.executeWithRetry`, `isRetryableError`)

Source: `RetryManager` in the core package.  The retry configuration and the
per-call `RetryContext` are taken verbatim from the source interfaces; error
objects are represented by their message strings, and `Date.now()` is passed in
as the parameter `now`. -/

structure RetryConfig where
  maxRetries : Nat
  backoffMs : Nat
  exponentialBackoff : Bool
  retryableErrors : List String
deriving DecidableEq

structure RetryContext where
  callId : String
  attempt : Nat
  lastError : Option String
  nextRetryTime : Option Nat
deriving DecidableEq

/-- JS `String.prototype.includes` (substring containment). -/
def jsIncludes (s pat : String) : Bool :=
  decide (pat.toList <:+: s.toList)

/-- `pattern.slice(1, -1)`: drop the first and last characters. -/
def sliceEnds (p : String) : String :=
  String.mk ((p.toList.drop 1).dropLast)

/-- JS `String.prototype.startsWith`. -/
def jsStartsWith (s pre : String) : Bool :=
  pre.toList.isPrefixOf s.toList

/-- JS `String.prototype.endsWith`. -/
def jsEndsWith (s suf : String) : Bool :=
  suf.toList.isSuffixOf s.toList

/-- `RetryManager.isRetryableError`.  The semantics of JS `RegExp` is kept
abstract: `regexTest pat msg` is `some b` when `new RegExp(pat)` constructs
successfully and `.test(msg)` returns `b`, and `none` when the constructor
throws (the source then falls back to literal-substring containment of the
still-slash-delimited pattern). -/
def isRetryableError (regexTest : String → String → Option Bool)
    (cfg : RetryConfig) (msg : String) : Bool :=
  if msg = "" then false
  else
    cfg.retryableErrors.any fun pattern =>
      if jsStartsWith pattern "/" && jsEndsWith pattern "/" then
        match regexTest (sliceEnds pattern) msg with
        | some b => b
        | none => jsIncludes msg pattern
      else jsIncludes msg pattern

/-- `RetryManager.calculateBackoff`. -/
def calculateBackoff (attempt : Nat) (cfg : RetryConfig) : Nat :=
  if cfg.exponentialBackoff then cfg.backoffMs * 2 ^ (attempt - 1)
  else cfg.backoffMs

/-- Result of a run of `executeWithRetry`: the value returned or error thrown,
the final `retryContexts` map, the final state of this call's context object,
and the total number of invocations of `operation`. -/
structure RetryResult (α : Type) where
  result : Except String α
  contexts : List (String × RetryContext)
  finalCtx : RetryContext
  invocations : Nat

/-- The `while (true)` loop of `RetryManager.executeWithRetry`.  `op i` is the
outcome of the `i`-th invocation of `operation` (counted from 0 across the
whole run).  The loop retries at most `maxRetries - attempt` times, so `fuel`
bounds the number of recursive steps; the fuel-exhausted branch is unreachable
whenever `maxRetries + 1 ≤ fuel + attempt` (proved below), and
`executeWithRetry` supplies such a fuel. -/
def retryLoop {α : Type} (regexTest : String → String → Option Bool)
    (cfg : RetryConfig) (now : Nat) (callId : String)
    (op : Nat → Except String α) :
    Nat → Nat → RetryContext → List (String × RetryContext) → RetryResult α
  | fuel, i, ctx, m =>
    match op i with
    | .ok v => ⟨.ok v, mapDel m callId, ctx, i + 1⟩
    | .error e =>
      -- `context.lastError = error` mutates the object stored in the map
      let ctx1 : RetryContext := { ctx with lastError := some e }
      let m1 := mapSet m callId ctx1
      if cfg.maxRetries ≤ ctx1.attempt ∨ isRetryableError regexTest cfg e = false then
        ⟨.error e, mapDel m1 callId, ctx1, i + 1⟩
      else
        match fuel with
        | 0 => ⟨.error e, mapDel m1 callId, ctx1, i + 1⟩
        | fuel' + 1 =>
          let ctx2 : RetryContext := { ctx1 with attempt := ctx1.attempt + 1 }
          let ctx3 : RetryContext :=
            { ctx2 with nextRetryTime := some (now + calculateBackoff ctx2.attempt cfg) }
          retryLoop regexTest cfg now callId op fuel' (i + 1) ctx3 (mapSet m1 callId ctx3)

/-- `RetryManager.executeWithRetry`: fetch or create the `RetryContext` for
`callId`, then run the retry loop. -/
def executeWithRetry {α : Type} (regexTest : String → String → Option Bool)
    (cfg : RetryConfig) (now : Nat) (callId : String)
    (op : Nat → Except String α) (m : List (String × RetryContext)) :
    RetryResult α :=
  match mapGet m callId with
  | some ctx => retryLoop regexTest cfg now callId op (cfg.maxRetries + 1) 0 ctx m
  | none =>
    let ctx : RetryContext := ⟨callId, 0, none, none⟩
    retryLoop regexTest cfg now callId op (cfg.maxRetries + 1) 0 ctx
      (mapSet m callId ctx)

/-- Every exit of the retry loop has performed at least one invocation past the
starting index. -/
theorem retryLoop_invocations_ge {α : Type} (regexTest : String → String → Option Bool)
    (cfg : RetryConfig) (now : Nat) (callId : String) (op : Nat → Except String α) :
    ∀ fuel i ctx m,
      i + 1 ≤ (retryLoop regexTest cfg now callId op fuel i ctx m).invocations := by
  intro fuel
  induction fuel with
  | zero =>
    intro i ctx m
    rw [retryLoop]
    rcases h : op i with v | e <;> simp [h]
  | succ fuel ih =>
    intro i ctx m
    rw [retryLoop]
    rcases h : op i with v | e <;> simp [h]
    split
    · simp
    · exact le_trans (by omega) (ih (i + 1) _ _)

/-- The behaviour `executeWithRetry` guarantees for a run that starts at
invocation index `i` with `a` attempts already used: the invocation count is
bounded, the returned value (resp. thrown error) is the outcome of the last
invocation, and all earlier invocations failed. -/
def RetrySpec {α : Type} (op : Nat → Except String α) (cfg : RetryConfig)
    (i a : Nat) (r : RetryResult α) : Prop :=
  r.invocations ≤ i + 1 + (cfg.maxRetries - a)
  ∧ (∀ v, r.result = .ok v → op (r.invocations - 1) = .ok v)
  ∧ (∀ e, r.result = .error e → op (r.invocations - 1) = .error e)
  ∧ (∀ j, i ≤ j → j + 1 < r.invocations → ∃ e, op j = .error e)

theorem retrySpec_exit_ok {α : Type} {op : Nat → Except String α} {cfg : RetryConfig}
    {i a : Nat} {v : α} (h : op i = .ok v)
    (cs : List (String × RetryContext)) (c : RetryContext) :
    RetrySpec op cfg i a ⟨.ok v, cs, c, i + 1⟩ := by
  refine ⟨Nat.le_add_right _ _, ?_, ?_, ?_⟩
  · intro v' hv
    dsimp at hv ⊢
    injection hv with hh
    subst hh
    simpa using h
  · intro e' hv
    exact absurd hv (by simp)
  · intro j hij hj
    dsimp at hj
    omega

theorem retrySpec_exit_err {α : Type} {op : Nat → Except String α} {cfg : RetryConfig}
    {i a : Nat} {e : String} (h : op i = .error e)
    (cs : List (String × RetryContext)) (c : RetryContext) :
    RetrySpec op cfg i a ⟨.error e, cs, c, i + 1⟩ := by
  refine ⟨Nat.le_add_right _ _, ?_, ?_, ?_⟩
  · intro v' hv
    exact absurd hv (by simp)
  · intro e' hv
    dsimp at hv ⊢
    injection hv with hh
    subst hh
    simpa using h
  · intro j hij hj
    dsimp at hj
    omega

theorem retrySpec_step {α : Type} {op : Nat → Except String α} {cfg : RetryConfig}
    {i a : Nat} {r : RetryResult α}
    (hlt : a < cfg.maxRetries) (hop : ∃ e, op i = Except.error e)
    (h : RetrySpec op cfg (i + 1) (a + 1) r) : RetrySpec op cfg i a r := by
  obtain ⟨hb, hok, herr, hprev⟩ := h
  refine ⟨by omega, hok, herr, ?_⟩
  intro j hij hj
  rcases Nat.eq_or_lt_of_le hij with rfl | hlt2
  · exact hop
  · exact hprev j (by omega) hj

/-- The retry loop satisfies `RetrySpec` whenever its fuel satisfies the
invariant maintained by `executeWithRetry`. -/
theorem retryLoop_spec {α : Type} (regexTest : String → String → Option Bool)
    (cfg : RetryConfig) (now : Nat) (callId : String) (op : Nat → Except String α) :
    ∀ fuel i ctx m, cfg.maxRetries + 1 ≤ fuel + ctx.attempt →
      RetrySpec op cfg i ctx.attempt (retryLoop regexTest cfg now callId op fuel i ctx m) := by
  intro fuel
  induction fuel with
  | zero =>
    intro i ctx m hinv
    rw [retryLoop]
    rcases h : op i with e | v
    · simp only [h]
      split
      · exact retrySpec_exit_err h _ _
      · exact retrySpec_exit_err h _ _
    · simp only [h]
      exact retrySpec_exit_ok h _ _
  | succ fuel ih =>
    intro i ctx m hinv
    rw [retryLoop]
    rcases h : op i with e | v
    · simp only [h]
      split
      · exact retrySpec_exit_err h _ _
      · next hguard =>
        have hlt : ctx.attempt < cfg.maxRetries := by
          rcases Nat.lt_or_ge ctx.attempt cfg.maxRetries with hh | hh
          · exact hh
          · exact absurd (Or.inl hh) hguard
        exact retrySpec_step hlt ⟨e, h⟩
          (ih (i + 1) _ _ (by show cfg.maxRetries + 1 ≤ fuel + (ctx.attempt + 1); omega))
    · simp only [h]
      exact retrySpec_exit_ok h _ _

/-- Every exit of the retry loop deletes this call's context from the
`retryContexts` map, and every error exit throws exactly the error recorded as
`lastError` of the final context. -/
theorem retryLoop_bookkeeping {α : Type} (regexTest : String → String → Option Bool)
    (cfg : RetryConfig) (now : Nat) (callId : String) (op : Nat → Except String α) :
    ∀ fuel i ctx m,
      mapGet (retryLoop regexTest cfg now callId op fuel i ctx m).contexts callId = none
      ∧ ∀ e, (retryLoop regexTest cfg now callId op fuel i ctx m).result = .error e →
          (retryLoop regexTest cfg now callId op fuel i ctx m).finalCtx.lastError = some e := by
  intro fuel
  induction fuel with
  | zero =>
    intro i ctx m
    rw [retryLoop]
    rcases h : op i with e | v
    · simp only [h]
      split
      · refine ⟨mapGet_mapDel_self _ _, ?_⟩
        intro e' hv
        dsimp at hv ⊢
        injection hv with hh
        subst hh
        rfl
      · refine ⟨mapGet_mapDel_self _ _, ?_⟩
        intro e' hv
        dsimp at hv ⊢
        injection hv with hh
        subst hh
        rfl
    · simp only [h]
      refine ⟨mapGet_mapDel_self _ _, ?_⟩
      intro e' hv
      exact absurd hv (by simp)
  | succ fuel ih =>
    intro i ctx m
    rw [retryLoop]
    rcases h : op i with e | v
    · simp only [h]
      split
      · refine ⟨mapGet_mapDel_self _ _, ?_⟩
        intro e' hv
        dsimp at hv ⊢
        injection hv with hh
        subst hh
        rfl
      · exact ih (i + 1) _ _
    · simp only [h]
      refine ⟨mapGet_mapDel_self _ _, ?_⟩
      intro e' hv
      exact absurd hv (by simp)

/-- C8: after a successful `executeWithRetry` no `RetryContext` remains stored
for the call id; after a failing run (including retry exhaustion) the thrown
error equals the `lastError` recorded in the final attempt's `RetryContext`,
and that context is discarded from the map as well. -/
theorem executeWithRetry_bookkeeping {α : Type} (regexTest : String → String → Option Bool)
    (cfg : RetryConfig) (now : Nat) (callId : String)
    (op : Nat → Except String α) (m : List (String × RetryContext)) :
    mapGet (executeWithRetry regexTest cfg now callId op m).contexts callId = none
    ∧ ∀ e, (executeWithRetry regexTest cfg now callId op m).result = .error e →
        (executeWithRetry regexTest cfg now callId op m).finalCtx.lastError = some e := by
  unfold executeWithRetry
  rcases hm : mapGet m callId with _ | ctx <;> simp only [hm] <;>
    exact retryLoop_bookkeeping regexTest cfg now callId op _ 0 _ _

/-- Concrete retry configuration used for witnesses: one retry allowed, the
single literal matcher "boom". -/
def retryCfgCE : RetryConfig := ⟨1, 10, false, ["boom"]⟩

/-- Concrete abstract-regex oracle (no slash-delimited pattern is ever
consulted for these inputs). -/
def retryRtCE : String → String → Option Bool := fun _ _ => none

/-- A concrete operation failing with a retryable message on every attempt. -/
def retryOpCE : Nat → Except String Unit := fun _ => .error "boom"

theorem executeWithRetry_bookkeeping_witness :
    mapGet (executeWithRetry retryRtCE retryCfgCE 0 "c1" retryOpCE []).contexts "c1" = none
    ∧ (executeWithRetry retryRtCE retryCfgCE 0 "c1" retryOpCE []).finalCtx.lastError = some "boom" :=
  ⟨(executeWithRetry_bookkeeping retryRtCE retryCfgCE 0 "c1" retryOpCE []).1,
   (executeWithRetry_bookkeeping retryRtCE retryCfgCE 0 "c1" retryOpCE []).2 "boom" rfl⟩

/-- C10: starting with no pre-existing `RetryContext` for `callId`,
`executeWithRetry` invokes the operation between 1 and `maxRetries + 1` times
and terminates, returning the value of the final (first successful) invocation
or throwing the error of the final (last failed) invocation, all earlier
invocations having failed. -/
theorem executeWithRetry_terminates {α : Type} (regexTest : String → String → Option Bool)
    (cfg : RetryConfig) (now : Nat) (callId : String)
    (op : Nat → Except String α) (m : List (String × RetryContext))
    (h : mapGet m callId = none) :
    1 ≤ (executeWithRetry regexTest cfg now callId op m).invocations
    ∧ (executeWithRetry regexTest cfg now callId op m).invocations ≤ cfg.maxRetries + 1
    ∧ (∀ v, (executeWithRetry regexTest cfg now callId op m).result = .ok v →
        op ((executeWithRetry regexTest cfg now callId op m).invocations - 1) = .ok v)
    ∧ (∀ e, (executeWithRetry regexTest cfg now callId op m).result = .error e →
        op ((executeWithRetry regexTest cfg now callId op m).invocations - 1) = .error e)
    ∧ (∀ j, j + 1 < (executeWithRetry regexTest cfg now callId op m).invocations →
        ∃ e, op j = .error e) := by
  unfold executeWithRetry
  simp only [h]
  have hs := retryLoop_spec regexTest cfg now callId op (cfg.maxRetries + 1) 0
    (⟨callId, 0, none, none⟩ : RetryContext)
    (mapSet m callId (⟨callId, 0, none, none⟩ : RetryContext)) (by simp)
  obtain ⟨hb, hok, herr, hprev⟩ := hs
  refine ⟨?_, ?_, hok, herr, fun j hj => hprev j (Nat.zero_le _) hj⟩
  · exact retryLoop_invocations_ge regexTest cfg now callId op _ 0 _ _
  · omega

/-- A concrete operation failing once with a retryable message, then
succeeding. -/
def retryOpOnce : Nat → Except String Nat := fun n =>
  if n = 0 then .error "boom" else .ok 42

theorem executeWithRetry_terminates_witness :
    1 ≤ (executeWithRetry retryRtCE retryCfgCE 0 "c1" retryOpOnce []).invocations
    ∧ (executeWithRetry retryRtCE retryCfgCE 0 "c1" retryOpOnce []).invocations
        ≤ retryCfgCE.maxRetries + 1
    ∧ retryOpOnce ((executeWithRetry retryRtCE retryCfgCE 0 "c1" retryOpOnce []).invocations - 1)
        = .ok 42 :=
  ⟨(executeWithRetry_terminates retryRtCE retryCfgCE 0 "c1" retryOpOnce [] rfl).1,
   (executeWithRetry_terminates retryRtCE retryCfgCE 0 "c1" retryOpOnce [] rfl).2.1,
   (executeWithRetry_terminates retryRtCE retryCfgCE 0 "c1" retryOpOnce [] rfl).2.2.1 42 rfl⟩

/-- C7 counterexample: with `maxRetries = 1` and an operation that always
fails with the matching message "boom", the second invocation's error matches
a configured matcher, yet the run stops after exactly 2 invocations — a
matching error is *not* always retried, so "retried if and only if the message
matches a matcher" is false as stated. -/
theorem executeWithRetry_match_without_retry :
    isRetryableError retryRtCE retryCfgCE "boom" = true
    ∧ retryOpCE 1 = .error "boom"
    ∧ (executeWithRetry retryRtCE retryCfgCE 0 "c1" retryOpCE []).invocations = 2
    ∧ (executeWithRetry retryRtCE retryCfgCE 0 "c1" retryOpCE []).result = .error "boom" :=
  ⟨rfl, rfl, rfl, rfl⟩

/-- C7 (amended): an error raised inside `executeWithRetry`'s loop is retried
(another invocation follows) iff its message matches at least one configured
matcher *and* fewer than `maxRetries` attempts have been used; an error
matching no matcher makes the run fail immediately with that error, with zero
further invocations. -/
theorem retryLoop_retry_iff {α : Type} (regexTest : String → String → Option Bool)
    (cfg : RetryConfig) (now : Nat) (callId : String) (op : Nat → Except String α)
    (fuel i : Nat) (ctx : RetryContext) (m : List (String × RetryContext)) (e : String)
    (hfuel : cfg.maxRetries + 1 ≤ fuel + ctx.attempt)
    (herr : op i = .error e) :
    (i + 1 < (retryLoop regexTest cfg now callId op fuel i ctx m).invocations ↔
      isRetryableError regexTest cfg e = true ∧ ctx.attempt < cfg.maxRetries)
    ∧ (isRetryableError regexTest cfg e = false →
        (retryLoop regexTest cfg now callId op fuel i ctx m).result = .error e
        ∧ (retryLoop regexTest cfg now callId op fuel i ctx m).invocations = i + 1) := by
  rw [retryLoop]
  simp only [herr]
  split
  · next hguard =>
    constructor
    · constructor
      · intro hlt
        dsimp at hlt
        omega
      · rintro ⟨hret, hatt⟩
        rcases hguard with hh | hh
        · exact absurd hh (by omega)
        · rw [hret] at hh
          exact absurd hh (by simp)
    · intro _
      exact ⟨rfl, rfl⟩
  · next hguard =>
    have hret : isRetryableError regexTest cfg e = true := by
      rcases hr : isRetryableError regexTest cfg e
      · exact absurd (Or.inr hr) hguard
      · rfl
    have hatt : ctx.attempt < cfg.maxRetries := by
      rcases Nat.lt_or_ge ctx.attempt cfg.maxRetries with hh | hh
      · exact hh
      · exact absurd (Or.inl hh) hguard
    rcases fuel with _ | fuel'
    · omega
    · constructor
      · constructor
        · intro _
          exact ⟨hret, hatt⟩
        · intro _
          exact lt_of_lt_of_le (by omega)
            (retryLoop_invocations_ge regexTest cfg now callId op fuel' (i + 1) _ _)
      · intro hfalse
        rw [hret] at hfalse
        exact absurd hfalse (by simp)

/-- A concrete operation failing with a message matching no configured
matcher. -/
def retryOpNoMatch : Nat → Except String Unit := fun _ => .error "zap"

theorem retryLoop_retry_iff_witness :
    (retryLoop retryRtCE retryCfgCE 0 "c1" retryOpNoMatch 2 0 ⟨"c1", 0, none, none⟩ []).result
        = .error "zap"
    ∧ (retryLoop retryRtCE retryCfgCE 0 "c1" retryOpNoMatch 2 0 ⟨"c1", 0, none, none⟩ []).invocations
        = 0 + 1 :=
  (retryLoop_retry_iff retryRtCE retryCfgCE 0 "c1" retryOpNoMatch 2 0
    ⟨"c1", 0, none, none⟩ [] "zap" (by decide) rfl).2 (by decide)

/-! ## FileLockManager (`acquireLock`, `releaseLock`, `processQueue`)

Source: `FileLockManager` in the core package.  Lock-file artifacts on disk
are elided: per the manager's design the in-memory `locks` map is authoritative
for intra-process correctness, and the lock file mirrors it (created in
`tryAcquireLock`, unlinked in `releaseLock`).  `Date.now()` and the generated
lock ids are supplied as parameters of each step.  Node's event loop runs each
synchronous block atomically, so the reachable states of the manager under any
interleaving of concurrent callers are exactly the states reached by an
arbitrary sequence of the four atomic steps below: the synchronous prefix of
`acquireLock`, the whole of `releaseLock` (including `processQueue`), the
timeout callback, and the 100 ms polling callback of a waiting acquirer. -/

structure FileLock where
  path : String
  lockId : String
  acquiredAt : Nat
  callId : String
deriving DecidableEq

structure LockRequest where
  path : String
  callId : String
  timeout : Nat
deriving DecidableEq

structure LMState where
  locks : List (String × FileLock)
  queue : List (String × List LockRequest)
deriving DecidableEq

/-- `FileLockManager.isLocked`. -/
def isLocked (st : LMState) (filePath : String) : Bool :=
  (mapGet st.locks filePath).isSome

/-- `FileLockManager.getLockInfo`. -/
def getLockInfo (st : LMState) (filePath : String) : Option FileLock :=
  mapGet st.locks filePath

/-- `FileLockManager.tryAcquireLock`: create the lock object and store it in
the `locks` map (the lock file write is elided, see the section comment). -/
def tryAcquireLock (st : LMState) (filePath callId lockId : String) (now : Nat) :
    LMState × FileLock :=
  let lock : FileLock := ⟨filePath, lockId, now, callId⟩
  (⟨mapSet st.locks filePath lock, st.queue⟩, lock)

/-- Outcome of the synchronous prefix of `FileLockManager.acquireLock`: either
the lock was granted immediately, or the request was enqueued and the caller
is now waiting (polling every 100 ms, with a timeout timer armed). -/
inductive AcquireOutcome
  | granted (l : FileLock)
  | queued
deriving DecidableEq

/-- The synchronous prefix of `FileLockManager.acquireLock`: a locked path
enqueues the request at the tail of that path's FIFO queue; an unlocked path
is granted immediately via `tryAcquireLock`. -/
def acquireStep (st : LMState) (req : LockRequest) (lockId : String) (now : Nat) :
    LMState × AcquireOutcome :=
  if isLocked st req.path then
    (⟨st.locks,
      mapSet st.queue req.path (((mapGet st.queue req.path).getD []) ++ [req])⟩, .queued)
  else
    let (st', l) := tryAcquireLock st req.path req.callId lockId now
    (st', .granted l)

/-- `FileLockManager.processQueue`: pop the head of the path's queue and grant
it the lock via `tryAcquireLock` (its resolved `FileLock` is dropped by the
source — only the `.catch` handler is attached). -/
def processQueue (st : LMState) (filePath : String) (lockId : String) (now : Nat) :
    LMState :=
  match mapGet st.queue filePath with
  | none => st
  | some [] => st
  | some (nextRequest :: rest) =>
    let st1 : LMState := ⟨st.locks, mapSet st.queue filePath rest⟩
    (tryAcquireLock st1 nextRequest.path nextRequest.callId lockId now).1

/-- `FileLockManager.releaseLock`: find the entry whose lock has the given id,
remove it from the `locks` map and process that path's queue; an unknown id is
a no-op. -/
def releaseLock (st : LMState) (lockId : String) (newLockId : String) (now : Nat) :
    LMState :=
  match st.locks.find? (fun e => e.2.lockId = lockId) with
  | none => st
  | some (filePath, _) =>
    processQueue ⟨mapDel st.locks filePath, st.queue⟩ filePath newLockId now

/-- The timeout callback armed by a queued `acquireLock`: remove this caller's
request from the queue (`findIndex` + `splice`) and reject the acquire
promise. -/
def timeoutStep (st : LMState) (filePath callId : String) : LMState :=
  match ((mapGet st.queue filePath).getD []).findIdx? (fun r => r.callId = callId) with
  | none => st
  | some i =>
    ⟨st.locks,
      mapSet st.queue filePath (((mapGet st.queue filePath).getD []).eraseIdx i)⟩

/-- The 100 ms polling callback of a waiting acquirer: if the path has become
unlocked, acquire it via `tryAcquireLock`. -/
def pollStep (st : LMState) (filePath callId lockId : String) (now : Nat) : LMState :=
  if isLocked st filePath then st else (tryAcquireLock st filePath callId lockId now).1

/-- One atomic event-loop step of the lock manager. -/
inductive LMOp
  | acquire (req : LockRequest) (lockId : String) (now : Nat)
  | release (lockId newLockId : String) (now : Nat)
  | timeoutFires (filePath callId : String)
  | poll (filePath callId lockId : String) (now : Nat)
deriving DecidableEq

def lmStep (st : LMState) : LMOp → LMState
  | .acquire req lockId now => (acquireStep st req lockId now).1
  | .release lockId newLockId now => releaseLock st lockId newLockId now
  | .timeoutFires filePath callId => timeoutStep st filePath callId
  | .poll filePath callId lockId now => pollStep st filePath callId lockId now

/-- Run an arbitrary interleaving of atomic lock-manager steps. -/
def lmRun (st : LMState) (ops : List LMOp) : LMState :=
  ops.foldl lmStep st

/-- The lock manager's initial state: empty `locks` and `queue` maps. -/
def initLM : LMState := ⟨[], []⟩

theorem mapGet_map_replace {α : Type} {m : List (String × α)} {k : String} {v : α}
    (hex : ∃ e ∈ m, e.1 = k) :
    mapGet (m.map (fun e => if e.1 = k then (k, v) else e)) k = some v := by
  induction m with
  | nil => simp at hex
  | cons e' rest ih =>
    rw [List.map_cons]
    by_cases h' : e'.1 = k
    · rw [if_pos h']
      simp [mapGet]
    · rw [if_neg h']
      obtain ⟨e, he, hek⟩ := hex
      rcases List.mem_cons.mp he with he1 | he1
      · exact absurd (he1 ▸ hek) h'
      · simpa [mapGet, h'] using ih ⟨e, he1, hek⟩

theorem mapGet_append_last {α : Type} {m : List (String × α)} {k : String} {v : α}
    (hnone : ∀ e ∈ m, e.1 ≠ k) :
    mapGet (m ++ [(k, v)]) k = some v := by
  induction m with
  | nil => simp [mapGet]
  | cons e' rest ih =>
    have h' : e'.1 ≠ k := hnone e' (List.mem_cons_self _ _)
    simpa [mapGet, h'] using ih fun e he => hnone e (List.mem_cons_of_mem _ he)

theorem mapGet_mapSet_self {α : Type} (m : List (String × α)) (k : String) (v : α) :
    mapGet (mapSet m k v) k = some v := by
  unfold mapSet
  split
  · next hany =>
    rw [List.any_eq_true] at hany
    obtain ⟨e, he, hek⟩ := hany
    exact mapGet_map_replace ⟨e, he, by simpa using hek⟩
  · next hany =>
    apply mapGet_append_last
    intro e he hek
    exact hany (List.any_eq_true.mpr ⟨e, he, by simp [hek]⟩)

theorem mapSet_mem {α : Type} {m : List (String × α)} {k : String} {v : α}
    {e : String × α} (he : e ∈ mapSet m k v) : e = (k, v) ∨ e ∈ m := by
  unfold mapSet at he
  split at he
  · obtain ⟨a, ha, hae⟩ := List.mem_map.mp he
    by_cases h' : a.1 = k
    · simp only [h', if_true] at hae
      exact Or.inl hae.symm
    · simp only [h', if_false] at hae
      exact Or.inr (hae ▸ ha)
  · rcases List.mem_append.mp he with h | h
    · exact Or.inr h
    · exact Or.inl (List.mem_singleton.mp h)

theorem mapSet_keys_nodup {α : Type} {m : List (String × α)}
    (h : (m.map Prod.fst).Nodup) (k : String) (v : α) :
    ((mapSet m k v).map Prod.fst).Nodup := by
  unfold mapSet
  split
  · have heq : (m.map (fun e => if e.1 = k then (k, v) else e)).map Prod.fst
        = m.map Prod.fst := by
      rw [List.map_map]
      apply List.map_congr_left
      intro a _
      by_cases h' : a.1 = k <;> simp [h']
    rw [heq]
    exact h
  · next hany =>
    rw [List.map_append]
    rw [List.nodup_append]
    refine ⟨h, List.nodup_singleton _, ?_⟩
    intro x hx hx'
    simp only [List.map_cons, List.map_nil, List.mem_singleton] at hx'
    subst hx'
    obtain ⟨e, he, hek⟩ := List.mem_map.mp hx
    exact hany (List.any_eq_true.mpr ⟨e, he, by simp [hek]⟩)

theorem mapDel_keys_nodup {α : Type} {m : List (String × α)}
    (h : (m.map Prod.fst).Nodup) (k : String) :
    ((mapDel m k).map Prod.fst).Nodup :=
  List.Nodup.sublist ((List.filter_sublist m).map Prod.fst) h

theorem mapDel_mem {α : Type} {m : List (String × α)} {k : String}
    {e : String × α} (he : e ∈ mapDel m k) : e ∈ m :=
  List.mem_of_mem_filter he

theorem mapGet_mem {α : Type} {m : List (String × α)} {k : String} {v : α}
    (h : mapGet m k = some v) : (k, v) ∈ m := by
  induction m with
  | nil => cases h
  | cons e rest ih =>
    rw [mapGet] at h
    split at h
    · next heq =>
      injection h with h'
      have he : e = (k, v) := by
        cases e
        simp_all
      rw [he]
      exact List.mem_cons_self _ _
    · exact List.mem_cons_of_mem _ (ih h)

/-- Structural invariant of the lock manager's maps: keys are distinct, each
stored `FileLock` records the path it is keyed under, and each queued
`LockRequest` records the path whose queue holds it. -/
def LMInv (st : LMState) : Prop :=
  (st.locks.map Prod.fst).Nodup
  ∧ (∀ e ∈ st.locks, e.2.path = e.1)
  ∧ (st.queue.map Prod.fst).Nodup
  ∧ (∀ e ∈ st.queue, ∀ r ∈ e.2, r.path = e.1)

theorem LMInv_init : LMInv initLM := by
  refine ⟨List.nodup_nil, ?_, List.nodup_nil, ?_⟩ <;> intro e he <;> cases he

theorem LMInv_tryAcquireLock {st : LMState} (h : LMInv st)
    (filePath callId lockId : String) (now : Nat) :
    LMInv (tryAcquireLock st filePath callId lockId now).1 := by
  obtain ⟨h1, h2, h3, h4⟩ := h
  refine ⟨mapSet_keys_nodup h1 _ _, ?_, h3, h4⟩
  intro e he
  rcases mapSet_mem he with rfl | he'
  · rfl
  · exact h2 e he'

theorem LMInv_step {st : LMState} (h : LMInv st) (op : LMOp) :
    LMInv (lmStep st op) := by
  obtain ⟨h1, h2, h3, h4⟩ := h
  cases op with
  | acquire req lockId now =>
    show LMInv (acquireStep st req lockId now).1
    unfold acquireStep
    split
    · refine ⟨h1, h2, mapSet_keys_nodup h3 _ _, ?_⟩
      intro e he r hr
      rcases mapSet_mem he with rfl | he'
      · rcases List.mem_append.mp hr with hr' | hr'
        · rcases hq : mapGet st.queue req.path with _ | q0
          · rw [hq] at hr'
            cases hr'
          · rw [hq] at hr'
            exact h4 _ (mapGet_mem hq) r hr'
        · rw [List.mem_singleton.mp hr']
      · exact h4 e he' r hr
    · exact LMInv_tryAcquireLock ⟨h1, h2, h3, h4⟩ _ _ _ _
  | release lockId newLockId now =>
    show LMInv (releaseLock st lockId newLockId now)
    unfold releaseLock
    split
    · exact ⟨h1, h2, h3, h4⟩
    · next filePath l hfind =>
      have hdel : LMInv ⟨mapDel st.locks filePath, st.queue⟩ := by
        refine ⟨mapDel_keys_nodup h1 _, ?_, h3, h4⟩
        intro e he
        exact h2 e (mapDel_mem he)
      unfold processQueue
      split
      · exact hdel
      · exact hdel
      · next nextRequest rest hq =>
        obtain ⟨d1, d2, d3, d4⟩ := hdel
        apply LMInv_tryAcquireLock
        refine ⟨d1, d2, mapSet_keys_nodup h3 _ _, ?_⟩
        intro e he r hr
        rcases mapSet_mem he with rfl | he'
        · exact h4 _ (mapGet_mem hq) r (List.mem_cons_of_mem _ hr)
        · exact h4 e he' r hr
  | timeoutFires filePath callId =>
    show LMInv (timeoutStep st filePath callId)
    unfold timeoutStep
    split
    · exact ⟨h1, h2, h3, h4⟩
    · refine ⟨h1, h2, mapSet_keys_nodup h3 _ _, ?_⟩
      intro e he r hr
      rcases mapSet_mem he with rfl | he'
      · have hr' := List.mem_of_mem_eraseIdx hr
        rcases hq : mapGet st.queue filePath with _ | q0
        · rw [hq] at hr'
          cases hr'
        · rw [hq] at hr'
          exact h4 _ (mapGet_mem hq) r hr'
      · exact h4 e he' r hr
  | poll filePath callId lockId now =>
    show LMInv (pollStep st filePath callId lockId now)
    unfold pollStep
    split
    · exact ⟨h1, h2, h3, h4⟩
    · exact LMInv_tryAcquireLock ⟨h1, h2, h3, h4⟩ _ _ _ _

theorem LMInv_run (ops : List LMOp) : LMInv (lmRun initLM ops) := by
  have hgen : ∀ st, LMInv st → LMInv (lmRun st ops) := by
    induction ops with
    | nil =>
      intro st h
      exact h
    | cons op rest ih =>
      intro st h
      exact ih _ (LMInv_step h op)
  exact hgen initLM LMInv_init

theorem filter_key_length_le {α : Type} {m : List (String × α)}
    (h : (m.map Prod.fst).Nodup) (p : String) :
    (m.filter (fun e => e.1 = p)).length ≤ 1 := by
  induction m with
  | nil => simp
  | cons e rest ih =>
    simp only [List.map_cons, List.nodup_cons] at h
    by_cases h' : e.1 = p
    · have hnil : rest.filter (fun e => decide (e.1 = p)) = [] := by
        rw [List.filter_eq_nil_iff]
        intro a ha
        simp only [decide_eq_true_eq]
        intro hc
        exact h.1 (List.mem_map.mpr ⟨a, ha, by rw [hc, ← h']⟩)
      simp [List.filter, h', hnil]
    · simpa [List.filter, h'] using ih h.2

/-- C3: in every state of the lock manager reachable by any interleaving of
acquire, release, timeout and polling steps by concurrent callers, at most one
live `FileLock` exists for any path. -/
theorem fileLockManager_lock_exclusion (ops : List LMOp) (p : String) :
    ((lmRun initLM ops).locks.filter (fun e => e.2.path = p)).length ≤ 1 := by
  obtain ⟨h1, h2, _, _⟩ := LMInv_run ops
  have heq : (lmRun initLM ops).locks.filter (fun e => e.2.path = p)
      = (lmRun initLM ops).locks.filter (fun e => e.1 = p) := by
    apply List.filter_congr
    intro e he
    rw [h2 e he]
  rw [heq]
  exact filter_key_length_le h1 p

/-- C6: while a path is locked, concurrent acquire requests are appended at
the tail of that path's FIFO queue; a release of the holder removes the queue
head and grants it the lock (the new `FileLock` carries the head's `callId`),
leaving the rest of the queue in order; a timeout removes the timed-out
request and preserves the relative order of the remaining queued requests. -/
theorem fileLockManager_fifo (st : LMState) (hinv : LMInv st) :
    (∀ req lockId now, isLocked st req.path = true →
      mapGet (acquireStep st req lockId now).1.queue req.path
        = some (((mapGet st.queue req.path).getD []) ++ [req]))
    ∧ (∀ lockId newLockId now filePath lock nextRequest rest,
        st.locks.find? (fun e => e.2.lockId = lockId) = some (filePath, lock) →
        mapGet st.queue filePath = some (nextRequest :: rest) →
        mapGet (releaseLock st lockId newLockId now).locks filePath
            = some ⟨filePath, newLockId, now, nextRequest.callId⟩
        ∧ mapGet (releaseLock st lockId newLockId now).queue filePath = some rest)
    ∧ (∀ filePath callId i,
        ((mapGet st.queue filePath).getD []).findIdx? (fun r => r.callId = callId)
            = some i →
        mapGet (timeoutStep st filePath callId).queue filePath
          = some (((mapGet st.queue filePath).getD []).eraseIdx i)) := by
  obtain ⟨h1, h2, h3, h4⟩ := hinv
  refine ⟨?_, ?_, ?_⟩
  · intro req lockId now hlocked
    unfold acquireStep
    rw [if_pos hlocked]
    exact mapGet_mapSet_self _ _ _
  · intro lockId newLockId now filePath lock nextRequest rest hfind hq
    have hpath : nextRequest.path = filePath :=
      h4 _ (mapGet_mem hq) nextRequest (List.mem_cons_self _ _)
    unfold releaseLock
    rw [hfind]
    unfold processQueue
    simp only [hq]
    unfold tryAcquireLock
    constructor
    · show mapGet (mapSet (mapDel st.locks filePath) nextRequest.path
          ⟨nextRequest.path, newLockId, now, nextRequest.callId⟩) filePath
        = some ⟨filePath, newLockId, now, nextRequest.callId⟩
      rw [hpath]
      exact mapGet_mapSet_self _ _ _
    · show mapGet (mapSet st.queue filePath rest) filePath = some rest
      exact mapGet_mapSet_self _ _ _
  · intro filePath callId i hidx
    unfold timeoutStep
    rw [hidx]
    exact mapGet_mapSet_self _ _ _

/-- A concrete lock-manager state: path "f" locked by "c0", two requests
queued in arrival order "c1", "c2". -/
def lmStCE : LMState :=
  ⟨[("f", ⟨"f", "lockA", 0, "c0"⟩)],
   [("f", [⟨"f", "c1", 500⟩, ⟨"f", "c2", 500⟩])]⟩

theorem fileLockManager_fifo_witness :
    mapGet (releaseLock lmStCE "lockA" "lockB" 7).locks "f"
        = some ⟨"f", "lockB", 7, "c1"⟩
    ∧ mapGet (releaseLock lmStCE "lockA" "lockB" 7).queue "f"
        = some [⟨"f", "c2", 500⟩] :=
  (fileLockManager_fifo lmStCE
      (by refine ⟨by decide, ?_, by decide, ?_⟩ <;> decide)).2.1
    "lockA" "lockB" 7 "f" ⟨"f", "lockA", 0, "c0"⟩ ⟨"f", "c1", 500⟩
    [⟨"f", "c2", 500⟩] rfl rfl

/-! ## CallParser (`GeminiClient.parseConcurrentSyntax`)

Source regex (applied with `matchAll`):
`(call\d+):\s*((?:[^,]|,(?!\s*call\d+:))*)(?=,\s*call\d+:|$)`.

The embedding implements the deterministic behaviour of this regex under
JavaScript's leftmost-greedy semantics: `matchAll` scans forward for the first
position where `call`+digits+`:` matches; `\s*` then greedily eats whitespace;
the body `(?:[^,]|,(?!\s*call\d+:))*` greedily consumes every character up to
the first comma that is followed by optional whitespace and another marker (a
"blocked" comma) or to the end of input — at that point the trailing lookahead
`(?=,\s*call\d+:|$)` necessarily holds, so no backtracking occurs — and
scanning resumes at the end of the match (the lookahead is not consumed).
`\s` is the full ECMAScript class, modelled below. -/

/-- The JS `\s` character class (also the set stripped by
`String.prototype.trim`): ECMAScript WhiteSpace (TAB, VT, FF, SP, NBSP, BOM
and the Unicode Space_Separator category) together with the LineTerminators
(LF, CR, LS, PS). -/
def jsIsSpace (c : Char) : Bool :=
  c = ' ' || c = '\t' || c = '\n' || c = '\r' || c = '\x0b' || c = '\x0c'
  || c = '\u00A0' || c = '\u1680'
  || (0x2000 ≤ c.toNat && c.toNat ≤ 0x200A)
  || c = '\u2028' || c = '\u2029' || c = '\u202F' || c = '\u205F'
  || c = '\u3000' || c = '\uFEFF'

/-- JS `String.prototype.trim` on character lists. -/
def jsTrimList (l : List Char) : List Char :=
  ((l.dropWhile jsIsSpace).reverse.dropWhile jsIsSpace).reverse

/-- Match one expected character at the head of the input. -/
def stripChar (c : Char) : List Char → Option (List Char)
  | [] => none
  | c' :: rest => if c' = c then some rest else none

/-- Split a maximal (possibly empty) digit prefix off the input (`\d*`,
greedy). -/
def digitSpan : List Char → List Char × List Char
  | [] => ([], [])
  | c :: rest =>
    if c.isDigit then ((c :: (digitSpan rest).1), (digitSpan rest).2)
    else ([], c :: rest)

/-- Match the literal prefix `call` (the four characters `c`, `a`, `l`, `l`)
at the head of the input. -/
def strip4 : List Char → Option (List Char)
  | 'c' :: 'a' :: 'l' :: 'l' :: rest => some rest
  | _ => none

/-- Match the marker `(call\d+):` at the head of the input; returns the first
capture group (`call` + digits) and the remainder after the colon. -/
def matchMarker (s : List Char) : Option (List Char × List Char) :=
  match strip4 s with
  | none => none
  | some rest =>
    match digitSpan rest with
    | ([], _) => none
    | (ds, rest2) =>
      match stripChar ':' rest2 with
      | none => none
      | some after => some ('c' :: 'a' :: 'l' :: 'l' :: ds, after)

/-- The greedy body `(?:[^,]|,(?!\s*call\d+:))*`: consume characters up to the
first blocked comma (a comma followed by `\s*call\d+:`) or the end of input;
returns the consumed body (capture group 2, untrimmed) and the rest. -/
def scanBody : List Char → List Char × List Char
  | [] => ([], [])
  | c :: rest =>
    if c = ',' ∧ (matchMarker (rest.dropWhile jsIsSpace)).isSome then
      ([], c :: rest)
    else ((c :: (scanBody rest).1), (scanBody rest).2)

/-- One whole-regex match attempt at the current position: marker, then `\s*`,
then the greedy body (the trailing lookahead holds by construction).  Returns
capture group 1 (the id), capture group 2 (the raw body) and the input
remaining after the match. -/
def matchAt (s : List Char) : Option (List Char × List Char × List Char) :=
  match matchMarker s with
  | none => none
  | some (idChars, afterColon) =>
    some (idChars, (scanBody (afterColon.dropWhile jsIsSpace)).1,
      (scanBody (afterColon.dropWhile jsIsSpace)).2)

/-- `text.matchAll(concurrentCallRegex)`: scan forward, collecting matches and
resuming after each one.  Every match consumes at least one character, so
`fuel := s.length` suffices (each step consumes fuel alongside input). -/
def findMatches : Nat → List Char → List (List Char × List Char)
  | 0, _ => []
  | _ + 1, [] => []
  | fuel + 1, c :: rest =>
    match matchAt (c :: rest) with
    | some (idChars, body, after) => (idChars, body) :: findMatches fuel after
    | none => findMatches fuel rest

structure ConcurrentCall where
  id : String
  prompt : String
deriving DecidableEq

structure ConcurrencyAnalysis where
  hasConcurrentCalls : Bool
  calls : List ConcurrentCall
deriving DecidableEq

/-- `GeminiClient.parseConcurrentSyntax`: config guards, then the regex
`matchAll`; each match becomes a call `{id: match[1], prompt: match[2].trim()}`,
and zero matches yield `hasConcurrentCalls: false` with an empty list. -/
def parseConcurrentCalls (concurrencyEnabled : Bool) (forcedMode : Option String)
    (text : String) : ConcurrencyAnalysis :=
  if concurrencyEnabled = false then ⟨false, []⟩
  else if forcedMode = some "sequential" then ⟨false, []⟩
  else if 0 < (findMatches text.toList.length text.toList).length then
    ⟨true, (findMatches text.toList.length text.toList).map
      (fun m => ⟨String.mk m.1, String.mk (jsTrimList m.2)⟩)⟩
  else ⟨false, []⟩

/-- The number of positions of the text where a well-formed call marker
(`call` + digits + `:`) begins. -/
def countMarkers : List Char → Nat
  | [] => 0
  | c :: rest => (if (matchMarker (c :: rest)).isSome then 1 else 0) + countMarkers rest

/-- C2 counterexample: "call1: a call2: b" contains two well-formed call
markers (`call1:` and `call2:`), but because the second marker is not
preceded by a comma the regex's body absorbs it, and `parse` returns a single
call whose prompt is "a call2: b" — not one call per marker. -/
theorem parseConcurrentCalls_absorbs_marker :
    countMarkers "call1: a call2: b".toList = 2
    ∧ (parseConcurrentCalls true none "call1: a call2: b").calls
        = [⟨"call1", "a call2: b"⟩]
    ∧ (parseConcurrentCalls true none "call1: a call2: b").calls.length
        ≠ countMarkers "call1: a call2: b".toList := by
  refine ⟨by decide, by decide, by decide⟩

theorem strip4_eq_some {s r : List Char} :
    strip4 s = some r ↔ s = 'c' :: 'a' :: 'l' :: 'l' :: r := by
  constructor
  · intro h
    unfold strip4 at h
    split at h
    · next rest => injection h with h'; rw [h']
    · cases h
  · intro h
    rw [h]
    rfl

theorem strip4_append_comma (a t : List Char) (h : strip4 a = none) :
    strip4 (a ++ ',' :: t) = none := by
  rcases hs : strip4 (a ++ ',' :: t) with _ | r
  · rfl
  · exfalso
    rw [strip4_eq_some] at hs
    rcases a with _ | ⟨c1, a⟩
    · simp at hs
    rcases a with _ | ⟨c2, a⟩
    · simp at hs
    rcases a with _ | ⟨c3, a⟩
    · simp at hs
    rcases a with _ | ⟨c4, a⟩
    · simp at hs
    · simp only [List.cons_append, List.cons.injEq] at hs
      obtain ⟨rfl, rfl, rfl, rfl, -⟩ := hs
      rw [show strip4 ('c' :: 'a' :: 'l' :: 'l' :: a) = some a from rfl] at h
      cases h

theorem digitSpan_cons_digit {c : Char} (hc : c.isDigit = true) (rest : List Char) :
    digitSpan (c :: rest) = (c :: (digitSpan rest).1, (digitSpan rest).2) := by
  rw [digitSpan, if_pos hc]

theorem digitSpan_cons_not_digit {c : Char} (hc : c.isDigit = false) (rest : List Char) :
    digitSpan (c :: rest) = ([], c :: rest) := by
  rw [digitSpan, if_neg (by simp [hc])]

theorem digitSpan_append (a x : List Char) :
    digitSpan (a ++ x)
      = if (digitSpan a).2.isEmpty then
          ((digitSpan a).1 ++ (digitSpan x).1, (digitSpan x).2)
        else ((digitSpan a).1, (digitSpan a).2 ++ x) := by
  induction a with
  | nil => simp [digitSpan]
  | cons c a ih =>
    by_cases hc : c.isDigit
    · rw [List.cons_append, digitSpan_cons_digit hc, digitSpan_cons_digit hc, ih]
      split <;> simp
    · have hc' : c.isDigit = false := by simp [hc]
      rw [List.cons_append, digitSpan_cons_not_digit hc', digitSpan_cons_not_digit hc']
      simp

theorem digitSpan_digits {ds : List Char} (hd : ds.all Char.isDigit = true)
    (x : List Char) (hx : (digitSpan x).1 = []) :
    digitSpan (ds ++ x) = (ds, (digitSpan x).2) := by
  induction ds with
  | nil =>
    simp only [List.nil_append]
    have : digitSpan x = ((digitSpan x).1, (digitSpan x).2) := rfl
    rw [this, hx]
  | cons c ds ih =>
    rw [List.all_cons, Bool.and_eq_true] at hd
    rw [List.cons_append, digitSpan_cons_digit hd.1, ih hd.2]

theorem digitSpan_not_digit {x : List Char}
    (hx : ∀ c rest, x = c :: rest → c.isDigit = false) :
    digitSpan x = ([], x) := by
  rcases x with _ | ⟨c, rest⟩
  · rfl
  · rw [digitSpan, if_neg ?_]
    rw [hx c rest rfl]
    simp

theorem matchMarker_valid {ds : List Char} (hne : ds ≠ []) (hd : ds.all Char.isDigit = true)
    (x : List Char) :
    matchMarker (('c' :: 'a' :: 'l' :: 'l' :: ds) ++ ':' :: x)
      = some ('c' :: 'a' :: 'l' :: 'l' :: ds, x) := by
  rcases ds with _ | ⟨d, ds⟩
  · exact absurd rfl hne
  have h0 : digitSpan (':' :: x) = ([], ':' :: x) :=
    digitSpan_cons_not_digit (by decide) x
  have hds := digitSpan_digits hd (':' :: x) (by rw [h0])
  rw [h0] at hds
  unfold matchMarker
  simp only [List.cons_append] at hds ⊢
  rw [show strip4 ('c' :: 'a' :: 'l' :: 'l' :: d :: (ds ++ ':' :: x))
      = some (d :: (ds ++ ':' :: x)) from rfl]
  dsimp only
  rw [hds]
  rfl

theorem matchMarker_comma (t : List Char) : matchMarker (',' :: t) = none := rfl

theorem matchMarker_space (t : List Char) : matchMarker (' ' :: t) = none := rfl

theorem matchMarker_append_comma (a t : List Char) (h : matchMarker a = none) :
    matchMarker (a ++ ',' :: t) = none := by
  unfold matchMarker at h ⊢
  rcases hs : strip4 a with _ | r
  · rw [strip4_append_comma a t hs]
  · rw [hs] at h
    try dsimp only at h
    rw [strip4_eq_some] at hs
    subst hs
    rw [show ('c' :: 'a' :: 'l' :: 'l' :: r) ++ ',' :: t
        = 'c' :: 'a' :: 'l' :: 'l' :: (r ++ ',' :: t) by simp]
    rw [show strip4 ('c' :: 'a' :: 'l' :: 'l' :: (r ++ ',' :: t))
        = some (r ++ ',' :: t) from rfl]
    try dsimp only
    rw [digitSpan_append r (',' :: t)]
    rcases hds : digitSpan r with ⟨ds, r2⟩
    rw [hds] at h
    try dsimp only at h
    rcases r2 with _ | ⟨c, r2⟩
    · rw [if_pos (show (List.isEmpty ([] : List Char)) = true from rfl)]
      rw [show digitSpan (',' :: t) = ([], ',' :: t) from rfl]
      rcases ds with _ | ⟨d, ds⟩
      · rfl
      · rfl
    · rw [if_neg (show ¬((c :: r2).isEmpty = true) by simp)]
      rcases ds with _ | ⟨d, ds⟩
      · rfl
      · by_cases hc : c = ':'
        · subst hc
          try dsimp only at h
          cases h
        · simp only [List.cons_append]
          rw [show stripChar ':' (c :: (r2 ++ ',' :: t))
              = if c = ':' then some (r2 ++ ',' :: t) else none from rfl]
          rw [if_neg hc]

/-- A well-formed call id: the four characters `call` followed by one or more
digits. -/
def isValidCallId (l : List Char) : Bool :=
  match strip4 l with
  | none => false
  | some ds => !ds.isEmpty && ds.all Char.isDigit

theorem isValidCallId_dest {l : List Char} (h : isValidCallId l = true) :
    ∃ ds, l = 'c' :: 'a' :: 'l' :: 'l' :: ds ∧ ds ≠ [] ∧ ds.all Char.isDigit = true := by
  unfold isValidCallId at h
  rcases hs : strip4 l with _ | ds
  · rw [hs] at h
    cases h
  · rw [hs] at h
    rw [Bool.and_eq_true] at h
    refine ⟨ds, strip4_eq_some.mp hs, ?_, h.2⟩
    intro hnil
    rw [hnil] at h
    cases h.1

/-- A prompt that cannot interfere with the regex's comma lookahead: no comma
inside it is followed (after optional whitespace) by a call marker. -/
def promptSafe : List Char → Bool
  | [] => true
  | c :: rest =>
    (if c = ',' then !(matchMarker (rest.dropWhile jsIsSpace)).isSome else true)
      && promptSafe rest

/-- Render a call list back to concurrent-call syntax: `id: prompt` segments
joined by `", "`. -/
def renderCalls : List (List Char × List Char) → List Char
  | [] => []
  | [(i, p)] => i ++ (':' :: ' ' :: p)
  | (i, p) :: rest => i ++ (':' :: ' ' :: (p ++ (',' :: ' ' :: renderCalls rest)))

theorem scanBody_safe {p : List Char} (h : promptSafe p = true) :
    scanBody p = (p, []) := by
  induction p with
  | nil => rfl
  | cons c rest ih =>
    rw [promptSafe, Bool.and_eq_true] at h
    rw [scanBody]
    by_cases hc : c = ','
    · have hm : (matchMarker (rest.dropWhile jsIsSpace)).isSome = false := by
        have h1 := h.1
        rw [if_pos hc] at h1
        simpa using h1
      rw [if_neg (by simp [hm])]
      rw [ih h.2]
    · rw [if_neg (by simp [hc])]
      rw [ih h.2]

theorem promptSafe_none {c : Char} {rest : List Char}
    (h : promptSafe (c :: rest) = true) (hc : c = ',') :
    matchMarker (rest.dropWhile jsIsSpace) = none := by
  rw [promptSafe, Bool.and_eq_true] at h
  have h1 := h.1
  rw [if_pos hc] at h1
  rcases hm : matchMarker (rest.dropWhile jsIsSpace) with _ | v
  · rfl
  · rw [hm] at h1
    cases h1

theorem scanBody_append {p : List Char} (hsafe : promptSafe p = true) (z : List Char)
    (hblk : (matchMarker ((' ' :: z).dropWhile jsIsSpace)).isSome = true) :
    scanBody (p ++ ',' :: ' ' :: z) = (p, ',' :: ' ' :: z) := by
  induction p with
  | nil =>
    rw [List.nil_append, scanBody]
    rw [if_pos ⟨rfl, hblk⟩]
  | cons c rest ih =>
    have hsafe' : promptSafe rest = true := by
      rw [promptSafe, Bool.and_eq_true] at hsafe
      exact hsafe.2
    rw [List.cons_append, scanBody]
    by_cases hc : c = ','
    · have hnone : matchMarker ((rest ++ ',' :: ' ' :: z).dropWhile jsIsSpace) = none := by
        have hrest : matchMarker (rest.dropWhile jsIsSpace) = none :=
          promptSafe_none hsafe hc
        rw [List.dropWhile_append]
        by_cases he : (rest.dropWhile jsIsSpace).isEmpty
        · rw [if_pos he]
          rw [show (',' :: ' ' :: z).dropWhile jsIsSpace = ',' :: ' ' :: z from rfl]
          exact matchMarker_comma _
        · rw [if_neg he]
          exact matchMarker_append_comma _ _ hrest
      rw [if_neg (by simp [hnone])]
      rw [ih hsafe']
    · rw [if_neg (by simp [hc])]
      rw [ih hsafe']

theorem trimmed_no_leading {p : List Char} (h : jsTrimList p = p) :
    p.dropWhile jsIsSpace = p := by
  have h1 : (p.dropWhile jsIsSpace).length ≤ p.length :=
    (List.dropWhile_sublist _).length_le
  have h2 : (jsTrimList p).length ≤ (p.dropWhile jsIsSpace).length := by
    unfold jsTrimList
    rw [List.length_reverse]
    calc ((p.dropWhile jsIsSpace).reverse.dropWhile jsIsSpace).length
        ≤ (p.dropWhile jsIsSpace).reverse.length := (List.dropWhile_sublist _).length_le
      _ = (p.dropWhile jsIsSpace).length := List.length_reverse _
  rw [h] at h2
  exact (List.dropWhile_sublist _).eq_of_length (by omega)

theorem dropWhile_trimmed_append_comma {p : List Char}
    (h : p.dropWhile jsIsSpace = p) (z : List Char) :
    (p ++ ',' :: z).dropWhile jsIsSpace = p ++ ',' :: z := by
  rw [List.dropWhile_append]
  by_cases he : (p.dropWhile jsIsSpace).isEmpty
  · rw [if_pos he]
    rw [h] at he
    rw [List.isEmpty_iff] at he
    subst he
    rfl
  · rw [if_neg he, h]

theorem matchAt_none {s : List Char} (h : matchMarker s = none) : matchAt s = none := by
  unfold matchAt
  rw [h]

theorem matchAt_some {s idChars afterColon : List Char}
    (h : matchMarker s = some (idChars, afterColon)) :
    matchAt s = some (idChars, (scanBody (afterColon.dropWhile jsIsSpace)).1,
      (scanBody (afterColon.dropWhile jsIsSpace)).2) := by
  unfold matchAt
  rw [h]

theorem findMatches_nil : ∀ fuel, findMatches fuel [] = [] := by
  intro fuel
  cases fuel <;> rfl

theorem findMatches_skip2 (f : Nat) (t : List Char) :
    findMatches (f + 2) (',' :: ' ' :: t) = findMatches f t := by
  rw [show f + 2 = (f + 1) + 1 from rfl]
  rw [findMatches]
  rw [matchAt_none (matchMarker_comma _)]
  rw [findMatches]
  rw [matchAt_none (matchMarker_space _)]

/-- The scan of a rendered well-formed call list returns exactly its calls: the
regex finds each marker in order, and each call's body (with its embedded
commas) is recovered verbatim. -/
theorem findMatches_render : ∀ (calls : List (List Char × List Char)),
    calls ≠ [] →
    (∀ c ∈ calls, isValidCallId c.1 = true) →
    (∀ c ∈ calls, promptSafe c.2 = true) →
    (∀ c ∈ calls, jsTrimList c.2 = c.2) →
    ∀ fuel, (renderCalls calls).length ≤ fuel →
      findMatches fuel (renderCalls calls) = calls := by
  intro calls
  induction calls with
  | nil =>
    intro h
    exact absurd rfl h
  | cons ip rest ih =>
    intro _ hvalid hsafe htrim fuel hfuel
    obtain ⟨i, p⟩ := ip
    obtain ⟨ds, rfl, hne, hdig⟩ :=
      isValidCallId_dest (hvalid _ (List.mem_cons_self _ _))
    have hptrim : jsTrimList p = p := htrim _ (List.mem_cons_self _ _)
    have hpsafe : promptSafe p = true := hsafe _ (List.mem_cons_self _ _)
    rcases rest with _ | ⟨ip2, rest2⟩
    · -- a single call: `call‹ds›: p`
      have hrend : renderCalls [('c' :: 'a' :: 'l' :: 'l' :: ds, p)]
          = 'c' :: ('a' :: 'l' :: 'l' :: ds ++ (':' :: ' ' :: p)) := by
        simp [renderCalls]
      rw [hrend] at hfuel ⊢
      rcases fuel with _ | f
      · simp at hfuel
      rw [findMatches]
      have hm : matchMarker ('c' :: ('a' :: 'l' :: 'l' :: ds ++ (':' :: ' ' :: p)))
          = some ('c' :: 'a' :: 'l' :: 'l' :: ds, ' ' :: p) := by
        have := matchMarker_valid hne hdig (' ' :: p)
        simpa using this
      rw [matchAt_some hm]
      have hdw : (' ' :: p).dropWhile jsIsSpace = p := by
        rw [show (' ' :: p).dropWhile jsIsSpace = p.dropWhile jsIsSpace from rfl]
        exact trimmed_no_leading hptrim
      rw [hdw, scanBody_safe hpsafe]
      dsimp only
      rw [findMatches_nil]
    · -- at least two calls
      have hrend : renderCalls (('c' :: 'a' :: 'l' :: 'l' :: ds, p) :: ip2 :: rest2)
          = 'c' :: ('a' :: 'l' :: 'l' :: ds
              ++ (':' :: ' ' :: (p ++ (',' :: ' ' :: renderCalls (ip2 :: rest2))))) := by
        simp [renderCalls]
      obtain ⟨ds2, hid2, hne2, hdig2⟩ :=
        isValidCallId_dest (hvalid ip2 (List.mem_cons_of_mem _ (List.mem_cons_self _ _)))
      -- the rendered tail starts with the second marker
      have hrcs : ∃ x2, renderCalls (ip2 :: rest2)
          = ('c' :: 'a' :: 'l' :: 'l' :: ds2) ++ (':' :: ' ' :: x2) := by
        rcases rest2 with _ | ⟨ip3, rest3⟩
        · exact ⟨ip2.2, by rw [show renderCalls [ip2] = ip2.1 ++ (':' :: ' ' :: ip2.2) by
            rcases ip2 with ⟨a, b⟩; simp [renderCalls], hid2]⟩
        · exact ⟨ip2.2 ++ (',' :: ' ' :: renderCalls (ip3 :: rest3)), by
            rw [show renderCalls (ip2 :: ip3 :: rest3)
                = ip2.1 ++ (':' :: ' ' :: (ip2.2 ++ (',' :: ' ' :: renderCalls (ip3 :: rest3))))
              by rcases ip2 with ⟨a, b⟩; simp [renderCalls], hid2]⟩
      obtain ⟨x2, hx2⟩ := hrcs
      have hmark2 : matchMarker (renderCalls (ip2 :: rest2))
          = some ('c' :: 'a' :: 'l' :: 'l' :: ds2, ' ' :: x2) := by
        rw [hx2]
        exact matchMarker_valid hne2 hdig2 (' ' :: x2)
      have hdw2 : (renderCalls (ip2 :: rest2)).dropWhile jsIsSpace
          = renderCalls (ip2 :: rest2) := by
        rw [hx2]
        rfl
      rw [hrend] at hfuel ⊢
      rcases fuel with _ | f
      · simp at hfuel
      rw [findMatches]
      have hm : matchMarker ('c' :: ('a' :: 'l' :: 'l' :: ds
            ++ (':' :: ' ' :: (p ++ (',' :: ' ' :: renderCalls (ip2 :: rest2))))))
          = some ('c' :: 'a' :: 'l' :: 'l' :: ds,
              ' ' :: (p ++ (',' :: ' ' :: renderCalls (ip2 :: rest2)))) := by
        have := matchMarker_valid hne hdig
          (' ' :: (p ++ (',' :: ' ' :: renderCalls (ip2 :: rest2))))
        simpa using this
      rw [matchAt_some hm]
      have hdw : (' ' :: (p ++ (',' :: ' ' :: renderCalls (ip2 :: rest2)))).dropWhile jsIsSpace
          = p ++ (',' :: ' ' :: renderCalls (ip2 :: rest2)) := by
        rw [show (' ' :: (p ++ (',' :: ' ' :: renderCalls (ip2 :: rest2)))).dropWhile jsIsSpace
            = (p ++ (',' :: ' ' :: renderCalls (ip2 :: rest2))).dropWhile jsIsSpace from rfl]
        exact dropWhile_trimmed_append_comma (trimmed_no_leading hptrim) _
      rw [hdw]
      have hblk : (matchMarker ((' ' :: renderCalls (ip2 :: rest2)).dropWhile jsIsSpace)).isSome
          = true := by
        rw [show (' ' :: renderCalls (ip2 :: rest2)).dropWhile jsIsSpace
            = (renderCalls (ip2 :: rest2)).dropWhile jsIsSpace from rfl]
        rw [hdw2, hmark2]
        rfl
      rw [scanBody_append hpsafe _ hblk]
      dsimp only
      -- fuel arithmetic for the two skipped separator characters
      have hlen2 : (renderCalls (ip2 :: rest2)).length + 2 ≤ f := by
        rw [List.length_cons, List.length_append] at hfuel
        simp only [List.length_cons, List.length_append] at hfuel
        omega
      obtain ⟨f2, rfl⟩ : ∃ f2, f = f2 + 2 := ⟨f - 2, by omega⟩
      rw [findMatches_skip2]
      rw [ih (by simp) (fun c hc => hvalid c (List.mem_cons_of_mem _ hc))
        (fun c hc => hsafe c (List.mem_cons_of_mem _ hc))
        (fun c hc => htrim c (List.mem_cons_of_mem _ hc)) f2 (by omega)]

theorem countMarkers_zero_head {c : Char} {rest : List Char}
    (h : countMarkers (c :: rest) = 0) :
    matchMarker (c :: rest) = none ∧ countMarkers rest = 0 := by
  rw [countMarkers] at h
  rcases hm : matchMarker (c :: rest) with _ | v
  · rw [hm] at h
    simpa using h
  · rw [hm] at h
    simp at h

theorem findMatches_no_marker :
    ∀ fuel (s : List Char), countMarkers s = 0 → findMatches fuel s = [] := by
  intro fuel
  induction fuel with
  | zero =>
    intro s _
    rfl
  | succ fuel ih =>
    intro s h
    rcases s with _ | ⟨c, rest⟩
    · rfl
    · obtain ⟨hm, hrest⟩ := countMarkers_zero_head h
      rw [findMatches, matchAt_none hm]
      exact ih rest hrest

/-- C2 (amended): (a) an input containing zero well-formed `call`+digits+`:`
markers parses as not-concurrent with an empty call list; (b) an input of
comma-separated well-formed calls — each marker after the first preceded by a
comma, each prompt trimmed and free of comma-then-marker sequences — parses
as concurrent with exactly those calls in marker order, their prompts (with any
embedded commas) preserved verbatim.  A marker not preceded by a comma is
absorbed into the preceding call's prompt (see the counterexample). -/
theorem parseConcurrentCalls_spec (calls : List (List Char × List Char))
    (hne : calls ≠ [])
    (hvalid : ∀ c ∈ calls, isValidCallId c.1 = true)
    (hsafe : ∀ c ∈ calls, promptSafe c.2 = true)
    (htrim : ∀ c ∈ calls, jsTrimList c.2 = c.2) :
    (parseConcurrentCalls true none (String.mk (renderCalls calls))
      = ⟨true, calls.map (fun c => ⟨String.mk c.1, String.mk c.2⟩)⟩)
    ∧ ∀ (text : String), countMarkers text.toList = 0 →
        parseConcurrentCalls true none text = ⟨false, []⟩ := by
  constructor
  · have hfm := findMatches_render calls hne hvalid hsafe htrim
      (renderCalls calls).length le_rfl
    unfold parseConcurrentCalls
    rw [if_neg (by simp)]
    rw [if_neg (by simp)]
    rw [show (String.mk (renderCalls calls)).toList = renderCalls calls from rfl]
    rw [hfm]
    rw [if_pos (List.length_pos.mpr hne)]
    refine congrArg _ ?_
    apply List.map_congr_left
    intro c hc
    rw [htrim c hc]
  · intro text h
    unfold parseConcurrentCalls
    rw [if_neg (by simp)]
    rw [if_neg (by simp)]
    rw [findMatches_no_marker _ _ h]
    rw [if_neg (by simp)]

theorem parseConcurrentCalls_spec_witness :
    parseConcurrentCalls true none
        (String.mk (renderCalls [("call1".toList, "a, b, c".toList),
          ("call2".toList, "d".toList)]))
      = ⟨true, [⟨"call1", "a, b, c"⟩, ⟨"call2", "d"⟩]⟩ :=
  (parseConcurrentCalls_spec
    [("call1".toList, "a, b, c".toList), ("call2".toList, "d".toList)]
    (by decide) (by decide) (by decide) (by decide)).1

/-! ## StreamAggregator (`mergeStreams`)

Source: `StreamAggregator` in the core package.  `ServerGeminiStreamEvent` is
the tagged event union produced by a `Turn`; a unit's stream is modelled by
the finite list of events its generator yields followed by its terminal
behaviour (normal completion, or raising an error — modelled by the message).
`mergeStreams` polls each still-active generator once per pass of its `while`
loop, awaiting them in array order, so the merge is a deterministic
round-robin over the still-active units; each pass of the loop is one round.
The `callIds[index]` lookup for an index beyond the metadata `Map`'s size
(possible only when duplicate call ids collapse the map) yields JS `undefined`,
modelled by the string "undefined". -/

inductive StreamEvent
  | content (text : String)
  | toolCallRequest (payload : String)
  | toolCallResult (payload : String)
  | errorEv (message : String)
  | finished (reason : String)
deriving DecidableEq

def StreamEvent.isErrorType : StreamEvent → Bool
  | .errorEv _ => true
  | _ => false

inductive StreamOutcome
  | completed
  | raises (message : String)
deriving DecidableEq

structure UnitStream where
  events : List StreamEvent
  outcome : StreamOutcome
deriving DecidableEq

/-- `EnrichedServerGeminiStreamEvent`: a stream event plus call attribution. -/
structure EnrichedEvent where
  event : StreamEvent
  callId : String
  callTitle : String
deriving DecidableEq

/-- The per-generator bookkeeping entry of `mergeStreams`'s `activeGenerators`
array (the unused `buffer` field is omitted). -/
structure GenState where
  callId : String
  events : List StreamEvent
  outcome : StreamOutcome
  done : Bool
deriving DecidableEq

/-- `new Map(calls.map(call => [call.id, call]))`: later duplicate keys
overwrite in place, insertion order is kept. -/
def jsMapOfList (l : List (String × String)) : List (String × String) :=
  l.foldl (fun m e => mapSet m e.1 e.2) []

/-- `this.callMetadata.get(callId)?.prompt || genInfo.callId` (JS `||` falls
back on the empty string as well). -/
def titleOf (meta : List (String × String)) (callId : String) : String :=
  match mapGet meta callId with
  | some prompt => if prompt = "" then callId else prompt
  | none => callId

/-- The synthesized error message: `Error in call ${callId}: ${message}`. -/
def synthMessage (callId message : String) : String :=
  "Error in call " ++ callId ++ ": " ++ message

/-- One `genInfo.generator.next()` poll of the loop body: a yielded event is
enriched and emitted; a normal completion marks the unit done silently; a
raise emits the synthesized `Error`-typed attributed event and marks the unit
done (inactive). -/
def stepUnit (meta : List (String × String)) (g : GenState) :
    List EnrichedEvent × GenState :=
  if g.done then ([], g)
  else
    match g.events with
    | e :: rest =>
      ([⟨e, g.callId, titleOf meta g.callId⟩], ⟨g.callId, rest, g.outcome, false⟩)
    | [] =>
      match g.outcome with
      | .completed => ([], ⟨g.callId, [], g.outcome, true⟩)
      | .raises msg =>
        ([⟨.errorEv (synthMessage g.callId msg), g.callId, titleOf meta g.callId⟩],
          ⟨g.callId, [], g.outcome, true⟩)

/-- One pass of the `while` loop: poll every generator in array order. -/
def runRound (meta : List (String × String)) :
    List GenState → List EnrichedEvent × List GenState
  | [] => ([], [])
  | g :: gs =>
    ((stepUnit meta g).1 ++ (runRound meta gs).1,
      (stepUnit meta g).2 :: (runRound meta gs).2)

/-- Remaining work of one unit: pending events plus its terminal step. -/
def unitMeasure (g : GenState) : Nat :=
  g.events.length + (if g.done then 0 else 1)

def mergeMeasure (gs : List GenState) : Nat :=
  (gs.map unitMeasure).sum

/-- `while (activeGenerators.some(g => !g.done))`: run rounds until every unit
is done.  Each round strictly decreases `mergeMeasure`, so that measure is
sufficient fuel (proved below); `mergeStreams` supplies it. -/
def mergeLoop (meta : List (String × String)) :
    Nat → List GenState → List EnrichedEvent × List GenState
  | 0, gs => ([], gs)
  | fuel + 1, gs =>
    if gs.any (fun g => !g.done) then
      ((runRound meta gs).1 ++ (mergeLoop meta fuel (runRound meta gs).2).1,
        (mergeLoop meta fuel (runRound meta gs).2).2)
    else ([], gs)

/-- `streams.map((generator, index) => ({generator, callId: callIds[index],
done: false, buffer: []}))`. -/
def initGens : List String → List UnitStream → List GenState
  | _, [] => []
  | ids, s :: ss =>
    ⟨ids.headD "undefined", s.events, s.outcome, false⟩ :: initGens ids.tail ss

/-- `StreamAggregator.mergeStreams` for an aggregator built from `calls`:
returns the merged attributed events and the final generator states. -/
def mergeStreams (calls : List (String × String)) (streams : List UnitStream) :
    List EnrichedEvent × List GenState :=
  mergeLoop (jsMapOfList calls)
    (mergeMeasure (initGens ((jsMapOfList calls).map Prod.fst) streams))
    (initGens ((jsMapOfList calls).map Prod.fst) streams)

def notDoneCount (gs : List GenState) : Nat :=
  (gs.map (fun g => if g.done then 0 else 1)).sum

theorem stepUnit_measure (meta : List (String × String)) (g : GenState) :
    unitMeasure (stepUnit meta g).2 + (if g.done then 0 else 1) = unitMeasure g := by
  unfold stepUnit unitMeasure
  by_cases hd : g.done
  · simp [hd]
  · rcases he : g.events with _ | ⟨e, rest⟩
    · rcases g.outcome <;> simp [hd, he]
    · simp [hd, he]

theorem stepUnit_callId (meta : List (String × String)) (g : GenState) :
    (stepUnit meta g).2.callId = g.callId := by
  unfold stepUnit
  by_cases hd : g.done
  · simp [hd]
  · rcases he : g.events with _ | ⟨e, rest⟩
    · rcases g.outcome <;> simp [hd, he]
    · simp [hd, he]

theorem stepUnit_events_callId (meta : List (String × String)) (g : GenState) :
    ∀ ev ∈ (stepUnit meta g).1, ev.callId = g.callId := by
  unfold stepUnit
  by_cases hd : g.done
  · simp [hd]
  · rcases he : g.events with _ | ⟨e, rest⟩
    · rcases g.outcome <;> simp [hd, he]
    · simp [hd, he]

theorem runRound_snd (meta : List (String × String)) (gs : List GenState) :
    (runRound meta gs).2 = gs.map (fun g => (stepUnit meta g).2) := by
  induction gs with
  | nil => rfl
  | cons g gs ih => simp [runRound, ih]

theorem runRound_measure (meta : List (String × String)) (gs : List GenState) :
    mergeMeasure (runRound meta gs).2 + notDoneCount gs = mergeMeasure gs := by
  induction gs with
  | nil => rfl
  | cons g gs ih =>
    unfold runRound
    simp only [mergeMeasure, notDoneCount, List.map_cons, List.sum_cons] at ih ⊢
    have := stepUnit_measure meta g
    omega

theorem notDoneCount_pos {gs : List GenState}
    (h : gs.any (fun g => !g.done) = true) : 1 ≤ notDoneCount gs := by
  induction gs with
  | nil => cases h
  | cons g gs ih =>
    rw [List.any_cons] at h
    unfold notDoneCount
    simp only [List.map_cons, List.sum_cons]
    by_cases hd : g.done
    · have h' : gs.any (fun g => !g.done) = true := by
        simp only [hd, Bool.not_true, Bool.false_or] at h
        exact h
      have := ih h'
      unfold notDoneCount at this
      omega
    · simp [hd]

theorem all_done_of_not_any {gs : List GenState}
    (h : ¬ gs.any (fun g => !g.done) = true) : ∀ g ∈ gs, g.done = true := by
  intro g hg
  by_contra hd
  exact h (List.any_eq_true.mpr ⟨g, hg, by simp [hd]⟩)

/-- Per-unit expected contribution to the merged output. -/
def unitExpected (meta : List (String × String)) (g : GenState) : List EnrichedEvent :=
  if g.done then []
  else
    g.events.map (fun e => ⟨e, g.callId, titleOf meta g.callId⟩)
      ++ (match g.outcome with
          | .completed => []
          | .raises msg =>
            [⟨.errorEv (synthMessage g.callId msg), g.callId, titleOf meta g.callId⟩])

def finalize (g : GenState) : GenState :=
  if g.done then g else ⟨g.callId, [], g.outcome, true⟩

theorem unitExpected_step (meta : List (String × String)) (g : GenState) :
    unitExpected meta g
      = (stepUnit meta g).1 ++ unitExpected meta (stepUnit meta g).2 := by
  unfold unitExpected stepUnit
  by_cases hd : g.done
  · simp [hd]
  · rcases he : g.events with _ | ⟨e, rest⟩
    · rcases ho : g.outcome with _ | msg <;> simp [hd, he, ho]
    · simp [hd, he]

theorem finalize_step (meta : List (String × String)) (g : GenState) :
    finalize (stepUnit meta g).2 = finalize g := by
  unfold finalize stepUnit
  by_cases hd : g.done
  · simp [hd]
  · rcases he : g.events with _ | ⟨e, rest⟩
    · rcases ho : g.outcome with _ | msg <;> simp [hd, he, ho]
    · simp [hd, he]

theorem unitMeasure_zero_done {g : GenState} (h : unitMeasure g = 0) :
    g.done = true ∧ g.events = [] := by
  unfold unitMeasure at h
  by_cases hd : g.done
  · refine ⟨hd, ?_⟩
    rw [if_pos hd] at h
    simpa using h
  · rw [if_neg hd] at h
    omega

theorem runRound_events_callId (meta : List (String × String)) (gs : List GenState) :
    ∀ ev ∈ (runRound meta gs).1, ev.callId ∈ gs.map (fun g => g.callId) := by
  induction gs with
  | nil =>
    intro ev hev
    cases hev
  | cons g gs ih =>
    intro ev hev
    unfold runRound at hev
    rcases List.mem_append.mp hev with h | h
    · exact List.mem_map.mpr ⟨g, List.mem_cons_self _ _,
        (stepUnit_events_callId meta g ev h).symm⟩
    · have := ih ev h
      simp only [List.map_cons, List.mem_cons]
      simp only [List.mem_map] at this ⊢
      obtain ⟨g', hg', he'⟩ := this
      exact Or.inr ⟨g', hg', he'⟩

theorem runRound_ids (meta : List (String × String)) (gs : List GenState) :
    (runRound meta gs).2.map (fun g => g.callId) = gs.map (fun g => g.callId) := by
  rw [runRound_snd]
  rw [List.map_map]
  apply List.map_congr_left
  intro g _
  exact stepUnit_callId meta g

theorem mergeLoop_events_callId (meta : List (String × String)) :
    ∀ fuel gs, ∀ ev ∈ (mergeLoop meta fuel gs).1,
      ev.callId ∈ gs.map (fun g => g.callId) := by
  intro fuel
  induction fuel with
  | zero =>
    intro gs ev hev
    cases hev
  | succ fuel ih =>
    intro gs ev hev
    unfold mergeLoop at hev
    split at hev
    · rcases List.mem_append.mp hev with h | h
      · exact runRound_events_callId meta gs ev h
      · have := ih _ ev h
        rw [runRound_ids] at this
        exact this
    · cases hev

theorem runRound_filter (meta : List (String × String)) :
    ∀ (gs : List GenState), (gs.map (fun g => g.callId)).Nodup →
      ∀ g ∈ gs, (runRound meta gs).1.filter (fun ev => ev.callId = g.callId)
        = (stepUnit meta g).1 := by
  intro gs
  induction gs with
  | nil =>
    intro _ g hg
    cases hg
  | cons g0 gs ih =>
    intro hnd g hg
    rw [List.map_cons, List.nodup_cons] at hnd
    unfold runRound
    rw [List.filter_append]
    rcases List.mem_cons.mp hg with rfl | hg'
    · have h1 : (stepUnit meta g).1.filter (fun ev => ev.callId = g.callId)
          = (stepUnit meta g).1 := by
        rw [List.filter_eq_self]
        intro ev hev
        simp [stepUnit_events_callId meta g ev hev]
      have h2 : (runRound meta gs).1.filter (fun ev => ev.callId = g.callId) = [] := by
        rw [List.filter_eq_nil_iff]
        intro ev hev
        have := runRound_events_callId meta gs ev hev
        simp only [decide_eq_true_eq]
        intro hc
        rw [hc] at this
        exact hnd.1 this
      rw [h1, h2, List.append_nil]
    · have hne : g0.callId ≠ g.callId := by
        intro hc
        exact hnd.1 (hc ▸ List.mem_map.mpr ⟨g, hg', rfl⟩)
      have h1 : (stepUnit meta g0).1.filter (fun ev => ev.callId = g.callId) = [] := by
        rw [List.filter_eq_nil_iff]
        intro ev hev
        rw [stepUnit_events_callId meta g0 ev hev]
        simpa using hne
      rw [h1, List.nil_append]
      exact ih hnd.2 g hg'

theorem mergeLoop_filter (meta : List (String × String)) :
    ∀ fuel gs, mergeMeasure gs ≤ fuel → (gs.map (fun g => g.callId)).Nodup →
      ∀ g ∈ gs, (mergeLoop meta fuel gs).1.filter (fun ev => ev.callId = g.callId)
        = unitExpected meta g := by
  intro fuel
  induction fuel with
  | zero =>
    intro gs hfuel hnd g hg
    have hz : unitMeasure g = 0 := by
      have hle : unitMeasure g ≤ mergeMeasure gs := by
        unfold mergeMeasure
        exact List.le_sum_of_mem (List.mem_map.mpr ⟨g, hg, rfl⟩)
      omega
    obtain ⟨hd, -⟩ := unitMeasure_zero_done hz
    unfold mergeLoop unitExpected
    simp [hd]
  | succ fuel ih =>
    intro gs hfuel hnd g hg
    unfold mergeLoop
    split
    · next hany =>
      rw [List.filter_append]
      rw [runRound_filter meta gs hnd g hg]
      have hmem2 : (stepUnit meta g).2 ∈ (runRound meta gs).2 := by
        rw [runRound_snd]
        exact List.mem_map.mpr ⟨g, hg, rfl⟩
      have hnd2 : ((runRound meta gs).2.map (fun g => g.callId)).Nodup := by
        rw [runRound_ids]
        exact hnd
      have hfuel2 : mergeMeasure (runRound meta gs).2 ≤ fuel := by
        have h1 := runRound_measure meta gs
        have h2 := notDoneCount_pos hany
        omega
      have := ih (runRound meta gs).2 hfuel2 hnd2 (stepUnit meta g).2 hmem2
      rw [stepUnit_callId] at this
      rw [this]
      exact (unitExpected_step meta g).symm
    · next hany =>
      have hd := all_done_of_not_any hany g hg
      unfold unitExpected
      simp [hd]

theorem mergeLoop_final (meta : List (String × String)) :
    ∀ fuel gs, mergeMeasure gs ≤ fuel →
      (mergeLoop meta fuel gs).2 = gs.map finalize := by
  intro fuel
  induction fuel with
  | zero =>
    intro gs hfuel
    unfold mergeLoop
    have : ∀ g ∈ gs, finalize g = g := by
      intro g hg
      have hz : unitMeasure g = 0 := by
        have hle : unitMeasure g ≤ mergeMeasure gs := by
          unfold mergeMeasure
          exact List.le_sum_of_mem (List.mem_map.mpr ⟨g, hg, rfl⟩)
        omega
      obtain ⟨hd, -⟩ := unitMeasure_zero_done hz
      unfold finalize
      rw [if_pos hd]
    exact ((List.map_congr_left (fun g hg => this g hg)).trans (List.map_id _)).symm
  | succ fuel ih =>
    intro gs hfuel
    unfold mergeLoop
    split
    · next hany =>
      have hfuel2 : mergeMeasure (runRound meta gs).2 ≤ fuel := by
        have h1 := runRound_measure meta gs
        have h2 := notDoneCount_pos hany
        omega
      rw [ih _ hfuel2, runRound_snd, List.map_map]
      apply List.map_congr_left
      intro g _
      exact finalize_step meta g
    · next hany =>
      have : ∀ g ∈ gs, finalize g = g := by
        intro g hg
        unfold finalize
        rw [if_pos (all_done_of_not_any hany g hg)]
      exact ((List.map_congr_left (fun g hg => this g hg)).trans (List.map_id _)).symm

theorem mapSet_append_of_not_mem {α : Type} {m : List (String × α)} {k : String} {v : α}
    (h : ¬ m.any (fun e => e.1 = k) = true) : mapSet m k v = m ++ [(k, v)] := by
  unfold mapSet
  rw [if_neg h]

theorem jsMapOfList_nodup {l : List (String × String)}
    (h : (l.map Prod.fst).Nodup) : jsMapOfList l = l := by
  unfold jsMapOfList
  have hgen : ∀ (l' acc : List (String × String)),
      ((acc ++ l').map Prod.fst).Nodup →
      l'.foldl (fun m e => mapSet m e.1 e.2) acc = acc ++ l' := by
    intro l'
    induction l' with
    | nil =>
      intro acc _
      simp
    | cons e l' ih =>
      intro acc hnd
      rw [List.foldl_cons]
      have hnotin : ¬ acc.any (fun a => a.1 = e.1) = true := by
        intro hc
        rw [List.any_eq_true] at hc
        obtain ⟨a, ha, hae⟩ := hc
        rw [List.map_append] at hnd
        have hdisj := (List.nodup_append.mp hnd).2.2
        refine hdisj (List.mem_map.mpr ⟨a, ha, rfl⟩) ?_
        rw [List.map_cons]
        rw [show a.1 = e.1 from by simpa using hae]
        exact List.mem_cons_self _ _
      rw [mapSet_append_of_not_mem hnotin]
      have := ih (acc ++ [e]) (by simpa using hnd)
      rw [this]
      simp
  exact hgen l [] (by simpa using h)

theorem initGens_zip : ∀ (ss : List UnitStream) (ids : List String),
    ids.length = ss.length →
    initGens ids ss
      = (ids.zip ss).map (fun p => ⟨p.1, p.2.events, p.2.outcome, false⟩) := by
  intro ss
  induction ss with
  | nil =>
    intro ids _
    rw [initGens]
    simp
  | cons s ss ih =>
    intro ids h
    rcases ids with _ | ⟨i, ids⟩
    · simp at h
    · rw [initGens, List.zip_cons_cons, List.map_cons]
      rw [show (i :: ids).headD "undefined" = i from rfl,
        show (i :: ids).tail = ids from rfl]
      rw [ih ids (by simpa using h)]

theorem length_filter_partition :
    ∀ (ids : List String), ids.Nodup →
      ∀ (l : List EnrichedEvent), (∀ ev ∈ l, ev.callId ∈ ids) →
      l.length
        = (ids.map (fun cid => (l.filter (fun ev => ev.callId = cid)).length)).sum := by
  intro ids
  induction ids with
  | nil =>
    intro _ l hl
    rcases l with _ | ⟨e, l⟩
    · rfl
    · exact absurd (hl e (List.mem_cons_self _ _)) (List.not_mem_nil _)
  | cons cid ids ih =>
    intro hnd l hl
    rw [List.nodup_cons] at hnd
    rw [List.map_cons, List.sum_cons]
    have hsplit : l.length
        = (l.filter (fun ev => decide (ev.callId = cid))).length
          + (l.filter (fun ev => !(decide (ev.callId = cid)))).length :=
      List.length_eq_length_filter_add _
    have hmem' : ∀ ev ∈ l.filter (fun ev => !(decide (ev.callId = cid))),
        ev.callId ∈ ids := by
      intro ev hev
      have h1 := List.mem_of_mem_filter hev
      have h2 := List.of_mem_filter hev
      simp only [Bool.not_eq_true', decide_eq_false_iff_not] at h2
      rcases List.mem_cons.mp (hl ev h1) with hc | hc
      · exact absurd hc h2
      · exact hc
    have hih := ih hnd.2 (l.filter (fun ev => !(decide (ev.callId = cid)))) hmem'
    have hconv : ∀ c ∈ ids,
        ((l.filter (fun ev => !(decide (ev.callId = cid)))).filter
            (fun ev => ev.callId = c)).length
          = (l.filter (fun ev => ev.callId = c)).length := by
      intro c hc
      rw [List.filter_filter]
      congr 1
      apply List.filter_congr
      intro ev _
      by_cases hec : ev.callId = c
      · have hne : ¬ ev.callId = cid := by
          rw [hec]
          intro hcc
          exact hnd.1 (hcc ▸ hc)
        simp only [hec, hne, decide_eq_true_eq, Bool.and_eq_true, Bool.not_eq_true',
          decide_eq_false_iff_not, decide_True, Bool.true_and, eq_self_iff_true, iff_true]
        intro hcc
        exact hnd.1 (hcc ▸ hc)
      · simp [hec]
    rw [List.map_congr_left (fun c hc => (hconv c hc).symm)] at *
    rw [hsplit, hih]

def StreamOutcome.isRaises : StreamOutcome → Bool
  | .completed => false
  | .raises _ => true

/-- The initial generator entry for one call/stream pair. -/
def initUnit (p : (String × String) × UnitStream) : GenState :=
  ⟨p.1.1, p.2.events, p.2.outcome, false⟩

theorem mergeStreams_eq {calls : List (String × String)} {streams : List UnitStream}
    (hnd : (calls.map Prod.fst).Nodup) (hlen : calls.length = streams.length) :
    mergeStreams calls streams
      = mergeLoop calls (mergeMeasure ((calls.zip streams).map initUnit))
          ((calls.zip streams).map initUnit) := by
  unfold mergeStreams
  rw [jsMapOfList_nodup hnd]
  rw [initGens_zip streams (calls.map Prod.fst) (by simpa using hlen)]
  rw [List.zip_map_left, List.map_map]
  rfl

theorem zip_initUnit_ids {calls : List (String × String)} {streams : List UnitStream}
    (hlen : calls.length = streams.length) :
    ((calls.zip streams).map initUnit).map (fun g => g.callId) = calls.map Prod.fst := by
  rw [List.map_map]
  simp only [Function.comp_def]
  have : ((calls.zip streams).map fun p => (initUnit p).callId)
      = ((calls.zip streams).map Prod.fst).map Prod.fst := by
    rw [List.map_map]
    rfl
  rw [this]
  rw [List.map_fst_zip _ _ (by omega)]

/-- Characterization of the merged subsequence attributed to one call. -/
theorem mergeStreams_filter_callId {calls : List (String × String)}
    {streams : List UnitStream}
    (hnd : (calls.map Prod.fst).Nodup) (hlen : calls.length = streams.length) :
    ∀ p ∈ calls.zip streams,
      (mergeStreams calls streams).1.filter (fun ev => ev.callId = p.1.1)
        = p.2.events.map (fun e => ⟨e, p.1.1, titleOf calls p.1.1⟩)
          ++ (match p.2.outcome with
              | .completed => []
              | .raises msg =>
                [⟨.errorEv (synthMessage p.1.1 msg), p.1.1, titleOf calls p.1.1⟩]) := by
  intro p hp
  rw [mergeStreams_eq hnd hlen]
  have hnd2 : (((calls.zip streams).map initUnit).map (fun g => g.callId)).Nodup := by
    rw [zip_initUnit_ids hlen]
    exact hnd
  have hf := mergeLoop_filter calls (mergeMeasure ((calls.zip streams).map initUnit))
    ((calls.zip streams).map initUnit) le_rfl hnd2 (initUnit p)
    (List.mem_map.mpr ⟨p, hp, rfl⟩)
  rw [show (initUnit p).callId = p.1.1 from rfl] at hf
  rw [hf]
  unfold unitExpected
  rw [if_neg (by simp [initUnit])]
  rfl

theorem mergeStreams_callIds {calls : List (String × String)} {streams : List UnitStream}
    (hnd : (calls.map Prod.fst).Nodup) (hlen : calls.length = streams.length) :
    ∀ ev ∈ (mergeStreams calls streams).1, ev.callId ∈ calls.map Prod.fst := by
  intro ev hev
  rw [mergeStreams_eq hnd hlen] at hev
  have := mergeLoop_events_callId calls _ _ ev hev
  rw [zip_initUnit_ids hlen] at this
  exact this

theorem finalize_done (g : GenState) : (finalize g).done = true := by
  unfold finalize
  by_cases hd : g.done
  · rw [if_pos hd]
    exact hd
  · rw [if_neg hd]

theorem mergeStreams_all_done (calls : List (String × String))
    (streams : List UnitStream) :
    (mergeStreams calls streams).2.all (fun g => g.done) = true := by
  unfold mergeStreams
  rw [mergeLoop_final _ _ _ le_rfl]
  rw [List.all_eq_true]
  intro g hg
  obtain ⟨g0, -, rfl⟩ := List.mem_map.mp hg
  exact finalize_done g0

/-- C5 counterexample: a unit that emits no events and then raises.  The
merged subsequence attributed to it consists of the synthesized Error event,
which the unit itself never emitted, so the attributed subsequence differs
from the unit's own emitted event sequence. -/
theorem mergeStreams_attributed_beyond_emitted :
    (mergeStreams [("call1", "t")] [⟨[], .raises "x"⟩]).1.filter
        (fun ev => ev.callId = "call1")
      = [⟨.errorEv "Error in call call1: x", "call1", "t"⟩]
    ∧ (⟨[], .raises "x"⟩ : UnitStream).events = ([] : List StreamEvent)
    ∧ ¬ ((mergeStreams [("call1", "t")] [⟨[], .raises "x"⟩]).1.filter
          (fun ev => ev.callId = "call1")
        = ([] : List StreamEvent).map (fun e => (⟨e, "call1", "t"⟩ : EnrichedEvent))) := by
  refine ⟨by decide, rfl, by decide⟩

/-- C5 (amended): for every merge of unit streams (with distinct call ids),
the subsequence of merged output events attributed to a unit equals that
unit's own emitted event sequence, enriched, in exactly the unit's emission
order — followed by the single synthesized Error-typed event when the unit
raised (that trailing synthesized event is attributed to the unit without
having been emitted by it). -/
theorem streamAggregator_intra_unit_order (calls : List (String × String))
    (streams : List UnitStream)
    (hnd : (calls.map Prod.fst).Nodup) (hlen : calls.length = streams.length) :
    ∀ p ∈ calls.zip streams,
      (mergeStreams calls streams).1.filter (fun ev => ev.callId = p.1.1)
        = p.2.events.map (fun e => ⟨e, p.1.1, titleOf calls p.1.1⟩)
          ++ (match p.2.outcome with
              | .completed => []
              | .raises msg =>
                [⟨.errorEv (synthMessage p.1.1 msg), p.1.1, titleOf calls p.1.1⟩]) :=
  mergeStreams_filter_callId hnd hlen

theorem streamAggregator_intra_unit_order_witness :
    (mergeStreams [("call1", "t1"), ("call2", "t2")]
        [⟨[.content "a"], .completed⟩, ⟨[.content "b"], .raises "x"⟩]).1.filter
        (fun ev => ev.callId = "call2")
      = [⟨.content "b", "call2", titleOf [("call1", "t1"), ("call2", "t2")] "call2"⟩,
         ⟨.errorEv (synthMessage "call2" "x"), "call2",
           titleOf [("call1", "t1"), ("call2", "t2")] "call2"⟩] :=
  streamAggregator_intra_unit_order [("call1", "t1"), ("call2", "t2")]
    [⟨[.content "a"], .completed⟩, ⟨[.content "b"], .raises "x"⟩]
    (by decide) (by decide)
    (("call2", "t2"), ⟨[.content "b"], .raises "x"⟩) (by decide)

theorem mergeStreams_filter_err {calls : List (String × String)}
    {streams : List UnitStream}
    (hnd : (calls.map Prod.fst).Nodup) (hlen : calls.length = streams.length)
    {p : (String × String) × UnitStream} (hp : p ∈ calls.zip streams)
    (hregp : p.2.events.all (fun e => !e.isErrorType) = true) :
    ((mergeStreams calls streams).1.filter
        (fun ev => ev.event.isErrorType && ev.callId = p.1.1)
      = (match p.2.outcome with
          | .completed => []
          | .raises msg =>
            [⟨.errorEv (synthMessage p.1.1 msg), p.1.1, titleOf calls p.1.1⟩]))
    ∧ (mergeStreams calls streams).1.filter
        (fun ev => !ev.event.isErrorType && ev.callId = p.1.1)
      = p.2.events.map (fun e => ⟨e, p.1.1, titleOf calls p.1.1⟩) := by
  have hchar := mergeStreams_filter_callId hnd hlen p hp
  have hA : (p.2.events.map
        (fun e => (⟨e, p.1.1, titleOf calls p.1.1⟩ : EnrichedEvent))).filter
      (fun ev => ev.event.isErrorType) = [] := by
    rw [List.filter_eq_nil_iff]
    intro ev hev
    obtain ⟨e, he, rfl⟩ := List.mem_map.mp hev
    have := List.all_eq_true.mp hregp e he
    simp only [Bool.not_eq_true'] at this
    simp [this]
  have hA' : (p.2.events.map
        (fun e => (⟨e, p.1.1, titleOf calls p.1.1⟩ : EnrichedEvent))).filter
      (fun ev => !ev.event.isErrorType)
      = p.2.events.map (fun e => ⟨e, p.1.1, titleOf calls p.1.1⟩) := by
    rw [List.filter_eq_self]
    intro ev hev
    obtain ⟨e, he, rfl⟩ := List.mem_map.mp hev
    have := List.all_eq_true.mp hregp e he
    simpa using this
  constructor
  · rw [← List.filter_filter]
    rw [hchar, List.filter_append, hA, List.nil_append]
    rcases p.2.outcome with _ | msg
    · rfl
    · rfl
  · rw [← List.filter_filter]
    rw [hchar, List.filter_append, hA']
    rcases p.2.outcome with _ | msg
    · simp
    · simp [StreamEvent.isErrorType]

/-- C1: for units with distinct call ids that each yield their events and then
raise, the merged stream contains exactly the sum of the units' event counts
regular (non-Error-typed) attributed events — each unit's regular events all
delivered, in order — plus exactly one synthesized Error-typed attributed
event per failing unit carrying that unit's callId and title; every unit ends
marked done (inactive), and the merge (a total function) terminates. -/
theorem streamAggregator_isolation (calls : List (String × String))
    (streams : List UnitStream)
    (hnd : (calls.map Prod.fst).Nodup) (hlen : calls.length = streams.length)
    (hfail : streams.all (fun s => s.outcome.isRaises) = true)
    (hreg : streams.all (fun s => s.events.all (fun e => !e.isErrorType)) = true) :
    ((mergeStreams calls streams).1.filter
        (fun ev => !ev.event.isErrorType)).length
      = (streams.map (fun s => s.events.length)).sum
    ∧ (∀ p ∈ calls.zip streams, ∃ msg, p.2.outcome = .raises msg ∧
        (mergeStreams calls streams).1.filter
            (fun ev => ev.event.isErrorType && ev.callId = p.1.1)
          = [⟨.errorEv (synthMessage p.1.1 msg), p.1.1, titleOf calls p.1.1⟩])
    ∧ (∀ p ∈ calls.zip streams,
        (mergeStreams calls streams).1.filter
            (fun ev => !ev.event.isErrorType && ev.callId = p.1.1)
          = p.2.events.map (fun e => ⟨e, p.1.1, titleOf calls p.1.1⟩))
    ∧ (mergeStreams calls streams).2.all (fun g => g.done) = true := by
  have hregp : ∀ p ∈ calls.zip streams, p.2.events.all (fun e => !e.isErrorType) = true :=
    fun p hp => List.all_eq_true.mp hreg p.2 (List.of_mem_zip hp).2
  refine ⟨?_, ?_, ?_, mergeStreams_all_done calls streams⟩
  · -- total regular count
    have hpart := length_filter_partition (calls.map Prod.fst) hnd
      ((mergeStreams calls streams).1.filter (fun ev => !ev.event.isErrorType))
      (fun ev hev => mergeStreams_callIds hnd hlen ev (List.mem_of_mem_filter hev))
    rw [hpart]
    have hids : calls.map Prod.fst = (calls.zip streams).map (fun p => p.1.1) := by
      rw [show (fun p : (String × String) × UnitStream => p.1.1)
          = Prod.fst ∘ Prod.fst from rfl]
      rw [← List.map_map]
      rw [List.map_fst_zip _ _ (by omega)]
    rw [hids, List.map_map]
    simp only [Function.comp_def]
    have hpoint : ∀ p ∈ calls.zip streams,
        ((((mergeStreams calls streams).1.filter
            (fun ev => !ev.event.isErrorType)).filter
            (fun ev => ev.callId = p.1.1)).length)
          = p.2.events.length := by
      intro p hp
      rw [List.filter_filter]
      have hcomm : (mergeStreams calls streams).1.filter
            (fun ev => decide (ev.callId = p.1.1) && !ev.event.isErrorType)
          = (mergeStreams calls streams).1.filter
            (fun ev => !ev.event.isErrorType && decide (ev.callId = p.1.1)) := by
        apply List.filter_congr
        intro ev _
        exact Bool.and_comm _ _
      rw [hcomm]
      rw [(mergeStreams_filter_err hnd hlen hp (hregp p hp)).2]
      rw [List.length_map]
    have hsnd : (calls.zip streams).map (fun p => p.2.events.length)
        = streams.map (fun s => s.events.length) := by
      rw [show (fun p : (String × String) × UnitStream => p.2.events.length)
          = (fun s : UnitStream => s.events.length) ∘ Prod.snd from rfl]
      rw [← List.map_map]
      rw [List.map_snd_zip _ _ (by omega)]
    rw [List.map_congr_left hpoint, hsnd]
  · intro p hp
    have hofail := List.all_eq_true.mp hfail p.2 (List.of_mem_zip hp).2
    rcases ho : p.2.outcome with _ | msg
    · rw [ho] at hofail
      cases hofail
    · refine ⟨msg, rfl, ?_⟩
      have := (mergeStreams_filter_err hnd hlen hp (hregp p hp)).1
      rw [ho] at this
      exact this
  · intro p hp
    exact (mergeStreams_filter_err hnd hlen hp (hregp p hp)).2

theorem streamAggregator_isolation_witness :
    ((mergeStreams [("call1", "t1"), ("call2", "t2")]
        [⟨[.content "a"], .raises "x"⟩, ⟨[], .raises "y"⟩]).1.filter
        (fun ev => !ev.event.isErrorType)).length
      = (([⟨[.content "a"], .raises "x"⟩, ⟨[], .raises "y"⟩] : List UnitStream).map
          (fun s => s.events.length)).sum
    ∧ (mergeStreams [("call1", "t1"), ("call2", "t2")]
        [⟨[.content "a"], .raises "x"⟩, ⟨[], .raises "y"⟩]).2.all
        (fun g => g.done) = true
    ∧ (mergeStreams [("call1", "t1"), ("call2", "t2")]
        [⟨[.content "a"], .raises "x"⟩, ⟨[], .raises "y"⟩]).1.filter
        (fun ev => ev.event.isErrorType && ev.callId = "call2")
      = [⟨.errorEv (synthMessage "call2" "y"), "call2",
          titleOf [("call1", "t1"), ("call2", "t2")] "call2"⟩] := by
  have hmain := streamAggregator_isolation [("call1", "t1"), ("call2", "t2")]
    [⟨[.content "a"], .raises "x"⟩, ⟨[], .raises "y"⟩]
    (by decide) (by decide) (by decide) (by decide)
  refine ⟨hmain.1, hmain.2.2.2, ?_⟩
  obtain ⟨msg, hmsg, heq⟩ := hmain.2.1
    (("call2", "t2"), ⟨[], .raises "y"⟩) (by decide)
  have hm : "y" = msg := by injection hmsg
  rw [← hm] at heq
  exact heq

/-! ## Cancellation (C9) and `executeConcurrentStreams` (C4) -/

/-- The ExecutionUnit ("Turn") state machine of spec §4.4:
`Idle → Streaming → {Completed | Failed | Cancelled}`. -/
inductive TurnPhase
  | idle
  | streaming
  | completedPhase
  | failed
  | cancelled
deriving DecidableEq

/-- A mid-stream execution unit: its phase and the residual (not yet
consumed) part of its event stream. -/
structure TurnState where
  phase : TurnPhase
  residual : UnitStream
deriving DecidableEq

/-- Modelled from the spec: `Turn.run` and its cancellation handling live in
`turn.ts`, which is not under `src/` (the orchestration code imports it).
Per §4.4, cancellation via the shared `AbortSignal` makes the unit stop
consuming the underlying stream promptly and transition to `Cancelled`
without emitting further events; per §7 `CancelledError` is a normal terminal
state, not an error, so the unit's generator simply finishes. -/
def cancelTurn (_ : TurnState) : TurnState :=
  ⟨.cancelled, ⟨[], .completed⟩⟩

theorem stepUnit_cancelled (meta : List (String × String)) (g : GenState)
    (h : g.events = [] ∧ g.outcome = .completed) :
    (stepUnit meta g).1 = []
    ∧ ((stepUnit meta g).2.events = [] ∧ (stepUnit meta g).2.outcome = .completed) := by
  unfold stepUnit
  by_cases hd : g.done
  · simp [hd, h.1, h.2]
  · simp [hd, h.1, h.2]

theorem runRound_cancelled (meta : List (String × String)) :
    ∀ gs, (∀ g ∈ gs, g.events = [] ∧ g.outcome = .completed) →
      (runRound meta gs).1 = []
      ∧ ∀ g' ∈ (runRound meta gs).2, g'.events = [] ∧ g'.outcome = .completed := by
  intro gs
  induction gs with
  | nil =>
    intro _
    exact ⟨rfl, fun g' hg' => absurd hg' (List.not_mem_nil _)⟩
  | cons g gs ih =>
    intro h
    have hg := h g (List.mem_cons_self _ _)
    have hrest := ih (fun g' hg' => h g' (List.mem_cons_of_mem _ hg'))
    unfold runRound
    constructor
    · rw [(stepUnit_cancelled meta g hg).1, hrest.1]
      rfl
    · intro g' hg'
      rcases List.mem_cons.mp hg' with rfl | hg''
      · exact (stepUnit_cancelled meta g hg).2
      · exact hrest.2 g' hg''

theorem mergeLoop_cancelled (meta : List (String × String)) :
    ∀ fuel gs, (∀ g ∈ gs, g.events = [] ∧ g.outcome = .completed) →
      (mergeLoop meta fuel gs).1 = [] := by
  intro fuel
  induction fuel with
  | zero =>
    intro gs _
    rfl
  | succ fuel ih =>
    intro gs h
    unfold mergeLoop
    split
    · rw [(runRound_cancelled meta gs h).1, List.nil_append]
      exact ih _ (runRound_cancelled meta gs h).2
    · rfl

theorem initGens_cancelled (ids : List String) (ss : List UnitStream)
    (h : ∀ s ∈ ss, s.events = [] ∧ s.outcome = .completed) :
    ∀ g ∈ initGens ids ss, g.events = [] ∧ g.outcome = .completed := by
  induction ss generalizing ids with
  | nil =>
    intro g hg
    cases hg
  | cons s ss ih =>
    intro g hg
    rw [initGens] at hg
    rcases List.mem_cons.mp hg with rfl | hg'
    · exact h s (List.mem_cons_self _ _)
    · exact ih _ (fun s' hs' => h s' (List.mem_cons_of_mem _ hs')) g hg'

/-- C9: issuing cancellation mid-stream (modelled by replacing every active
unit with its post-cancellation state per spec §4.4) drives every unit to the
`Cancelled` terminal state, and the merge of the units' residual streams
yields no further events — in particular no regular events — and terminates
with every unit marked done. -/
theorem cancellation_terminates (calls : List (String × String))
    (ts : List TurnState) :
    (ts.map cancelTurn).all (fun t => t.phase == TurnPhase.cancelled) = true
    ∧ (mergeStreams calls ((ts.map cancelTurn).map (fun t => t.residual))).1 = []
    ∧ (mergeStreams calls ((ts.map cancelTurn).map (fun t => t.residual))).2.all
        (fun g => g.done) = true := by
  refine ⟨?_, ?_, mergeStreams_all_done _ _⟩
  · rw [List.all_eq_true]
    intro t ht
    obtain ⟨t0, -, rfl⟩ := List.mem_map.mp ht
    rfl
  · unfold mergeStreams
    apply mergeLoop_cancelled
    apply initGens_cancelled
    intro s hs
    rw [List.map_map] at hs
    obtain ⟨t0, -, rfl⟩ := List.mem_map.mp hs
    exact ⟨rfl, rfl⟩

/-- An execution unit constructed by `executeConcurrentStreams`: its `Turn`'s
prompt id and the request handed to `turn.run`. -/
structure ExecUnit where
  promptId : String
  request : List String
deriving DecidableEq

/-- `GeminiClient.buildRequestFromCall`: `[{ text: call.prompt }]`. -/
def buildRequestFromCall (call : ConcurrentCall) : List String :=
  [call.prompt]

/-- `GeminiClient.executeConcurrentStreams`: one `Turn` per parsed call — with
prompt id `${prompt_id}-${call.id}` and the request built from the call — whose
run is abstracted by `runUnit`; the streams are merged by a `StreamAggregator`
built from the same calls.  `maxConcurrentCalls` is consulted nowhere on this
code path (nor in `sendMessageStream`'s concurrent routing): no clamping and
no synthesized excess-call error events exist in the source. -/
def executeConcurrentStreams (promptId : String) (calls : List ConcurrentCall)
    (runUnit : ConcurrentCall → UnitStream) :
    List ExecUnit × (List EnrichedEvent × List GenState) :=
  (calls.map (fun call => ⟨promptId ++ "-" ++ call.id, buildRequestFromCall call⟩),
    mergeStreams (calls.map (fun call => (call.id, call.prompt)))
      (calls.map runUnit))

/-- Four parsed calls — one more than the default `maxConcurrentCalls` of 3. -/
def fourCalls : List ConcurrentCall :=
  [⟨"call1", "a"⟩, ⟨"call2", "b"⟩, ⟨"call3", "c"⟩, ⟨"call4", "d"⟩]

/-- C4 evidence: with four parsed calls and the default `maxConcurrentCalls`
of 3, `executeConcurrentStreams` constructs four execution units — one per
call, no clamping — and the merged output of four normally completing units
contains no synthesized error event whatsoever, so the excess call is neither
rejected up front nor reported by an error event. -/
theorem executeConcurrentStreams_no_clamping :
    (executeConcurrentStreams "p" fourCalls
        (fun call => ⟨[.content call.prompt], .completed⟩)).1.length = 4
    ∧ ¬ ((executeConcurrentStreams "p" fourCalls
        (fun call => ⟨[.content call.prompt], .completed⟩)).1.length ≤ 3)
    ∧ ((executeConcurrentStreams "p" fourCalls
        (fun call => ⟨[.content call.prompt], .completed⟩)).2.1.filter
          (fun ev => ev.event.isErrorType)).length = 0
    ∧ (executeConcurrentStreams "p" fourCalls
        (fun call => ⟨[.content call.prompt], .completed⟩)).1
      = fourCalls.map (fun call => ⟨"p" ++ "-" ++ call.id, [call.prompt]⟩) := by
  refine ⟨by decide, by decide, by decide, by decide⟩
